import Mathlib

/-!
Verification of the ownership-tree layout and screening-list consolidation
logic of the entity-validator frontend (`src/index.tsx`).

The JavaScript in the page script is embedded shallowly:
* JS strings are Lean `String`s (operated on through their `List Char` data);
* optional / possibly-`undefined` JS values are `Option`s, with JS truthiness
  made explicit (`none` and `some ""` are falsy for strings, `0` is falsy for
  numbers);
* JS numbers are modelled as rationals `ℚ` (all arithmetic appearing in the
  embedded code is exact on the inputs considered);
* mutation of the accumulator arrays (`nodes`, `links`, `seenCompanies`,
  `personMap`) is explicit state passing.
-/

/-! ### JS value helpers -/

/-- Truthiness of a possibly-undefined JS string: `undefined` and `""` are falsy. -/
def jsTruthyS : Option String → Bool
  | some s => s ≠ ""
  | none => false

/-- JS `a || b` for possibly-undefined strings. -/
def jsOrS (a b : Option String) : Option String :=
  if jsTruthyS a then a else b

/-- JS `a || d` where `a` is a possibly-undefined string and `d` a string default. -/
def jsOrSD (a : Option String) (d : String) : String :=
  match a with
  | some s => if s = "" then d else s
  | none => d

/-- JS `a || d` for a possibly-undefined number (`0` is falsy). -/
def jsOrQ (a : Option ℚ) (d : ℚ) : ℚ :=
  match a with
  | some v => if v = 0 then d else v
  | none => d

/-! ### Character / string primitives used by `normalizeName`

`src/index.tsx` lines 785-850 manipulate strings with `toUpperCase`, `trim`,
`split`/`join`, `endsWith`, `slice`, character filtering, a title-stripping
regular expression, and `Array.prototype.sort`.  Each primitive is embedded
below on `List Char`. -/

/-- ASCII uppercasing of one character (JS `toUpperCase` on the ASCII inputs used). -/
def upChar (c : Char) : Char :=
  if 'a' ≤ c ∧ c ≤ 'z' then Char.ofNat (c.toNat - 32) else c

def upList (l : List Char) : List Char := l.map upChar

/-- `s` starts with `pat`. -/
def startsWithL : List Char → List Char → Bool
  | _, [] => true
  | [], _ :: _ => false
  | a :: as, b :: bs => a = b && startsWithL as bs

/-- `s` contains `pat` as a contiguous substring (JS `includes`). -/
def containsSub (s pat : List Char) : Bool :=
  match s with
  | [] => pat.isEmpty
  | _ :: t => startsWithL s pat || containsSub t pat

/-- Fueled scanner for `replaceSub`.  The fuel only makes the recursion
structural (so that concrete inputs evaluate inside the kernel); the wrapper
passes the string length, which is always sufficient because every step
consumes at least one character. -/
def replaceSubF (pat rep : List Char) : ℕ → List Char → List Char
  | 0, s => s
  | _ + 1, [] => []
  | f + 1, c :: t =>
    if pat ≠ [] ∧ startsWithL (c :: t) pat then
      -- consume the `pat.length` matched characters (`c` plus `pat.length - 1` of `t`)
      rep ++ replaceSubF pat rep f (t.drop (pat.length - 1))
    else
      c :: replaceSubF pat rep f t

/-- JS `s.split(pat).join(rep)`: replace every non-overlapping occurrence of
`pat` (nonempty) by `rep`, scanning left to right. -/
def replaceSub (pat rep s : List Char) : List Char :=
  replaceSubF pat rep s.length s

/-- `s` ends with `pat` (JS `endsWith`). -/
def endsWithL (s pat : List Char) : Bool :=
  startsWithL s.reverse pat.reverse

/-- JS `trim`: drop leading and trailing whitespace. -/
def trimL (s : List Char) : List Char :=
  ((s.dropWhile Char.isWhitespace).reverse.dropWhile Char.isWhitespace).reverse

/-- Fueled scanner for `collapseWS` (fuel as in `replaceSubF`). -/
def collapseWSF : ℕ → List Char → List Char
  | 0, s => s
  | _ + 1, [] => []
  | f + 1, c :: t =>
    if c.isWhitespace then ' ' :: collapseWSF f (t.dropWhile Char.isWhitespace)
    else c :: collapseWSF f t

/-- JS `replace(/\s+/g, ' ')`: collapse every maximal whitespace run to one space. -/
def collapseWS (s : List Char) : List Char :=
  collapseWSF s.length s

/-- Helper for `splitOnChar`, accumulating the current chunk reversed. -/
def splitOnCharAux (sep : Char) : List Char → List Char → List (List Char)
  | [], acc => [acc.reverse]
  | c :: t, acc =>
    if c = sep then acc.reverse :: splitOnCharAux sep t []
    else splitOnCharAux sep t (c :: acc)

/-- JS `s.split(sep)` for a one-character separator. -/
def splitOnChar (sep : Char) (s : List Char) : List (List Char) :=
  splitOnCharAux sep s []

/-- JS `parts.join(sep)`. -/
def joinSep (sep : List Char) : List (List Char) → List Char
  | [] => []
  | [x] => x
  | x :: y :: t => x ++ sep ++ joinSep sep (y :: t)

/-- JS default string comparison (code-unit lexicographic). -/
def lexLe : List Char → List Char → Bool
  | [], _ => true
  | _ :: _, [] => false
  | a :: as, b :: bs => if a = b then lexLe as bs else decide (a.toNat < b.toNat)

def insertSorted (x : List Char) : List (List Char) → List (List Char)
  | [] => [x]
  | y :: t => if lexLe x y then x :: y :: t else y :: insertSorted x t

/-- JS `Array.prototype.sort()` on strings (insertion sort; the comparison is total,
so the result agrees with the engine's sort). -/
def sortStrs : List (List Char) → List (List Char)
  | [] => []
  | x :: t => insertSorted x (sortStrs t)

/-! ### Name normalization (`normalizeName`, `src/index.tsx` lines 785-850) -/

/-- JS `\s+` strip after a candidate title: succeeds only when the remainder starts
with at least one whitespace character, consuming the whole run (greedy `\s+`). -/
def wsStrip : List Char → Option (List Char)
  | [] => none
  | c :: t => if c.isWhitespace then some (t.dropWhile Char.isWhitespace) else none

/-- One alternative of the title regex `^(TITLE)\.?\s+`: title, optional period,
mandatory whitespace (backtracking over the optional period as the regex engine does). -/
def titleStrip1 (t s : List Char) : Option (List Char) :=
  if startsWithL s t then
    match s.drop t.length with
    | '.' :: r2 =>
      match wsStrip r2 with
      | some r3 => some r3
      | none => wsStrip ('.' :: r2)
    | r => wsStrip r
  else none

/-- `normalized.replace(/^(MR|MRS|MS|MISS|DR|SIR|DAME|LORD|LADY|PROFESSOR|PROF)\.?\s+/i, '')`
applied to an already-uppercased string: alternatives are tried in order. -/
def stripTitle (s : List Char) : List Char :=
  let titles := ["MR", "MRS", "MS", "MISS", "DR", "SIR", "DAME", "LORD", "LADY",
    "PROFESSOR", "PROF"].map String.data
  match titles.findSome? (fun t => titleStrip1 t s) with
  | some r => r
  | none => s

/-- Company-branch punctuation filter: keep only `A`-`Z`, `0`-`9` and space
(character codes 65-90, 48-57, 32). -/
def keepAlnumSpace (c : Char) : Bool :=
  (65 ≤ c.toNat && c.toNat ≤ 90) || (48 ≤ c.toNat && c.toNat ≤ 57) || c.toNat = 32

/-- `normalizeName` from `src/index.tsx` lines 785-850 on the character list.
The `console.log` debug statements of the source are effect-free and omitted. -/
def normalizeNameL (s : List Char) : List Char :=
  -- `if (!name) return '';`
  if s = [] then []
  else
    let up := upList s
    -- company test: `name.toUpperCase().includes('LIMITED') || ... 'LTD' || 'PLC' || 'LLP'`
    if containsSub up "LIMITED".data || containsSub up "LTD".data ||
        containsSub up "PLC".data || containsSub up "LLP".data then
      let n0 := upList (trimL s)
      let n1 := replaceSub " LIMITED".data " LTD".data n0
      let n2 := if endsWithL n1 " LIMITED".data
                then n1.take (n1.length - 8) ++ " LTD".data else n1
      let n3 := if n2 = "LIMITED".data then "LTD".data else n2
      let n4 := replaceSub "P.L.C".data "PLC".data n3
      let n5 := replaceSub "L.L.P".data "LLP".data n4
      let n6 := replaceSub " COMPANY".data " CO".data n5
      let n7 := n6.filter keepAlnumSpace
      -- `normalized.split(' ').filter(s => s.length > 0).join(' ')`
      joinSep " ".data ((splitOnChar ' ' n7).filter (fun w => w.length > 0))
    else
      -- person branch
      let p0 := upList (trimL s)
      let p1 := stripTitle p0
      let p2 :=
        if p1.contains ',' then
          let ps := (splitOnChar ',' p1).map trimL
          if ps.length = 2 then ps[1]! ++ ' ' :: ps[0]! else p1
        else p1
      -- `replace(/\s+/g, ' ').trim()`
      let p3 := trimL (collapseWS p2)
      -- `split(' ').sort().join(' ')`
      joinSep " ".data (sortStrs (splitOnChar ' ' p3))

/-- `normalizeName` on Lean strings. -/
def normalizeName (s : String) : String :=
  ⟨normalizeNameL s.data⟩

/-! ### Screening-list consolidator (`personMap` / `addPerson`,
`src/index.tsx` lines 782-903)

The `personMap` JS `Map` is modelled as an insertion-ordered association list
from the normalized-name key to the entry value; `Map.set` on a fresh key
appends, and a merge updates the (first) entry with the key in place, exactly
as the `Map` does. -/

/-- One consolidated screening entry (the value stored in `personMap`). -/
structure SEntry where
  name : String
  roles : List String
  nationality : Option String
  dob : Option String
  linkedEntities : List String
  isCompany : Bool
  companyNumber : Option String
deriving DecidableEq, Repr

/-- The `data` record passed to `addPerson` by the five processing loops. -/
structure SRec where
  role : Option String
  nationality : Option String
  dob : Option String
  linkedEntity : Option String
  isCompany : Bool
  companyNumber : Option String
deriving DecidableEq, Repr

abbrev ScreenState := List (String × SEntry)

def hasKey (s : ScreenState) (k : String) : Bool :=
  s.any (fun p => p.1 = k)

/-- Update the first entry carrying key `k` (what mutating the object returned
by `personMap.get(k)` does). -/
def updateFirst (s : ScreenState) (k : String) (g : SEntry → SEntry) : ScreenState :=
  match s with
  | [] => []
  | (k0, e) :: t => if k0 = k then (k0, g e) :: t else (k0, e) :: updateFirst t k g

/-- JS `trim` on a string. -/
def trimS (s : String) : String := ⟨trimL s.data⟩

/-- JS `s.includes(',')`. -/
def hasComma (s : String) : Bool := s.data.contains ','

/-- The merge arm of `addPerson` (lines 861-891): the entry already exists. -/
def mergeEntry (existing : SEntry) (name : String) (data : SRec) : SEntry :=
  -- display-name preference (lines 865-874)
  let n1 :=
    if jsTruthyS data.nationality || jsTruthyS data.dob then
      if !jsTruthyS existing.nationality && !jsTruthyS existing.dob then trimS name
      else existing.name
    else if !hasComma existing.name && hasComma name then trimS name
    else existing.name
  { name := n1
    -- roles (lines 877-879): `if (data.role && !existing.roles.includes(data.role))`
    roles :=
      match data.role with
      | some r =>
          if r ≠ "" ∧ ¬ existing.roles.contains r then existing.roles ++ [r]
          else existing.roles
      | none => existing.roles
    -- first-writer-wins fields (lines 882-883)
    nationality := jsOrS existing.nationality data.nationality
    dob := jsOrS existing.dob data.dob
    -- linked entities (lines 886-888)
    linkedEntities :=
      match data.linkedEntity with
      | some le =>
          if le ≠ "" ∧ ¬ existing.linkedEntities.contains le then
            existing.linkedEntities ++ [le]
          else existing.linkedEntities
      | none => existing.linkedEntities
    isCompany := existing.isCompany || data.isCompany
    companyNumber := jsOrS existing.companyNumber data.companyNumber }

/-- The create arm of `addPerson` (lines 892-902): fresh normalized key. -/
def newEntry (name : String) (data : SRec) : SEntry :=
  { name := trimS name
    roles := match data.role with | some r => if r ≠ "" then [r] else [] | none => []
    nationality := jsOrS data.nationality none
    dob := jsOrS data.dob none
    linkedEntities :=
      match data.linkedEntity with | some le => if le ≠ "" then [le] else [] | none => []
    isCompany := data.isCompany
    companyNumber := jsOrS data.companyNumber none }

/-- `addPerson` (lines 853-903) for a name that is an actual string. -/
def addPerson (s : ScreenState) (name : String) (data : SRec) : ScreenState :=
  let key := normalizeName name
  if hasKey s key then updateFirst s key (fun e => mergeEntry e name data)
  else s ++ [(key, newEntry name data)]

/-- The roles list length of the entry stored under key `k` (0 when absent). -/
def rolesAt (s : ScreenState) (k : String) : ℕ :=
  match s.find? (fun p => p.1 = k) with
  | some p => p.2.roles.length
  | none => 0

/-- The entry stored under key `k` (the first one, as `Map.get` returns). -/
def entryAt (s : ScreenState) (k : String) : Option SEntry :=
  (s.find? (fun p => p.1 = k)).map Prod.snd

/-- No two stored entries share a normalized-name key. -/
def keysNodup : ScreenState → Bool
  | [] => true
  | (k, _) :: t => !(t.any (fun p => p.1 = k)) && keysNodup t

/-! #### `addPerson` as actually called: the name may be `undefined`

The five processing loops (lines 920-981) pass `entry.name`, `person.name`,
`ubo.name`, `trust.name`, `entity.name` straight through, so `addPerson` can
receive `undefined`.  `normalizeName` guards this (`if (!name) return ''`),
but the body of `addPerson` then evaluates `name.trim()` (line 894, and
conditionally lines 869/871/873), which throws a `TypeError` on `undefined`.
This variant makes that implicit exception explicit with `Except`. -/

/-- Merge arm when `name` is `undefined`: `name.trim()` (lines 869/873) and
`name.includes(',')` (line 871) throw; JS `&&` short-circuiting means line 871
only evaluates `name.includes` when the existing display name has no comma. -/
def mergeUndefName (s : ScreenState) (key : String) (e : SEntry) (data : SRec) :
    Except String ScreenState :=
  if jsTruthyS data.nationality || jsTruthyS data.dob then
    if !jsTruthyS e.nationality && !jsTruthyS e.dob then
      Except.error "TypeError: name.trim is not a function"
    else Except.ok (updateFirst s key (fun e0 => mergeEntry e0 e.name data))
  else if !hasComma e.name then
    Except.error "TypeError: name.includes is not a function"
  else Except.ok (updateFirst s key (fun e0 => mergeEntry e0 e.name data))

/-- `addPerson` as invoked by the processing loops, where the raw name is a
possibly-`undefined` JS value.  (When the merge proceeds with an `undefined`
name, none of the name-replacement branches can fire, so passing the existing
display name to `mergeEntry` reproduces the merge exactly.) -/
def addPersonJS (s : ScreenState) (name : Option String) (data : SRec) :
    Except String ScreenState :=
  let key := match name with
    | none => ""              -- `normalizeName` line 786: `if (!name) return ''`
    | some v => normalizeName v
  if hasKey s key then
    match name with
    | some v => Except.ok (updateFirst s key (fun e => mergeEntry e v data))
    | none =>
      match entryAt s key with
      | some e => mergeUndefName s key e data
      | none => Except.ok s    -- unreachable: `hasKey` guarantees presence
  else
    match name with
    | some v => Except.ok (s ++ [(key, newEntry v data)])
    | none => Except.error "TypeError: name.trim is not a function"  -- line 894

/-- One run of the consolidator over the records of a fetched document, in the
order the five loops visit them (lines 914-981). -/
def runConsolidator (recs : List (Option String × SRec)) : Except String ScreenState :=
  recs.foldlM (fun s nr => addPersonJS s nr.1 nr.2) []

/-! ### Ownership-tree data model

`OwnershipNode` as consumed by the tree code (`src/index.tsx` lines
1196-1490): every field is optional in the JSON, and `shareholders` and
`children` are two child arrays that the code always concatenates.  The
`depth` field only occurs on nodes built by the inversion code (the virtual
root carries `depth = -1`, tested at line 1477). -/

inductive ONode : Type where
  | mk (name : Option String) (company_name : Option String)
      (company_number : Option String) (is_company : Option Bool)
      (percentage : Option ℚ) (effective_percentage : Option ℚ)
      (percentage_band : Option String) (shares_held : Option ℚ)
      (country : Option String) (depth : Option Int)
      (shareholders : List ONode) (children : List ONode)

namespace ONode

def name : ONode → Option String | .mk v _ _ _ _ _ _ _ _ _ _ _ => v

def company_name : ONode → Option String | .mk _ v _ _ _ _ _ _ _ _ _ _ => v

def company_number : ONode → Option String | .mk _ _ v _ _ _ _ _ _ _ _ _ => v

def is_company : ONode → Option Bool | .mk _ _ _ v _ _ _ _ _ _ _ _ => v

def percentage : ONode → Option ℚ | .mk _ _ _ _ v _ _ _ _ _ _ _ => v

def effective_percentage : ONode → Option ℚ | .mk _ _ _ _ _ v _ _ _ _ _ _ => v

def percentage_band : ONode → Option String | .mk _ _ _ _ _ _ v _ _ _ _ _ => v

def shares_held : ONode → Option ℚ | .mk _ _ _ _ _ _ _ v _ _ _ _ => v

def country : ONode → Option String | .mk _ _ _ _ _ _ _ _ v _ _ _ => v

def depth : ONode → Option Int | .mk _ _ _ _ _ _ _ _ _ v _ _ => v

def shareholders : ONode → List ONode | .mk _ _ _ _ _ _ _ _ _ _ v _ => v

def children : ONode → List ONode | .mk _ _ _ _ _ _ _ _ _ _ _ v => v

end ONode

/-- Executable size measure on ownership trees, used as recursion fuel by the
fueled functions below (one unit per node visit and per list step). -/
def osize : ONode → ℕ
  | .mk _ _ _ _ _ _ _ _ _ _ sh ch => 1 + osizeL sh + osizeL ch
where
  osizeL : List ONode → ℕ
  | [] => 0
  | c :: t => 1 + osize c + osizeL t

/-- Total number of nodes of an ownership tree (`N` in the spec), counting
every entry of both child arrays, duplicates included. -/
def countNodes : ONode → ℕ
  | .mk _ _ _ _ _ _ _ _ _ _ sh ch => 1 + countList sh + countList ch
where
  countList : List ONode → ℕ
  | [] => 0
  | c :: t => countNodes c + countList t

/-! #### Subtree widths (`getSubtreeWidth`, lines 1355-1376) -/

mutual
/-- Fueled body of `getSubtreeWidth`; the wrapper supplies `osize`, which is
always sufficient, so the `fuel = 0` branch is never taken. -/
def getSubtreeWidthF : ℕ → ONode → ℚ
  | 0, _ => 250
  | f + 1, n =>
    let ac := n.shareholders ++ n.children
    if ac.length = 0 then 250              -- leaf node width
    else if 6 < ac.length then (ac.length : ℚ) * 200  -- compact spacing
    else max 250 (sumWidthsF f ac)         -- at least 250px wide
/-- Fueled sum of the children's subtree widths (`totalWidth` accumulation). -/
def sumWidthsF : ℕ → List ONode → ℚ
  | 0, _ => 0
  | _ + 1, [] => 0
  | f + 1, c :: t => getSubtreeWidthF f c + sumWidthsF f t
end

def getSubtreeWidth (n : ONode) : ℚ := getSubtreeWidthF (osize n) n

/-- Sum of subtree widths of a child list
(`childWidths.reduce((a, b) => a + b, 0)`). -/
def sumWidths (l : List ONode) : ℚ := (l.map getSubtreeWidth).sum

/-! #### Layout traversal (`traverseTree`, lines 1378-1469) -/

/-- Output node (`nodes.push({...})`, lines 1424-1436).  The source id is the
string `'node-' + nodes.length`; since `'node-' ++ ·` is injective, the id is
kept as the numeric index itself. -/
structure PNode where
  id : ℕ
  name : Option String
  companyNumber : Option String
  percentage : ℚ
  percentageBand : String
  shares : ℚ
  isCompany : Bool
  depth : Int
  x : ℚ
  y : ℚ
  country : String
deriving DecidableEq, Repr

/-- A parent→child edge (`links.push({source, target})`, line 1439),
holding the numeric part of the two node ids. -/
structure Link where
  source : ℕ
  target : ℕ
deriving DecidableEq, Repr

/-- Deduplication key (line 1407):
`companyNumber || (nodeName + '-' + x + '-' + y)`.  The JS value is a string;
the structured contents (registry number, or name with position) are kept
instead of the string encoding. -/
inductive NodeKey : Type where
  | registry (num : String)
  | byPos (name : Option String) (x y : ℚ)
deriving DecidableEq, Repr

def mkKey (companyNumber nodeName : Option String) (x y : ℚ) : NodeKey :=
  match companyNumber with
  | some s => if s = "" then NodeKey.byPos nodeName x y else NodeKey.registry s
  | none => NodeKey.byPos nodeName x y

/-- The mutable accumulators of `buildRecursiveOwnershipTree`: `nodes`,
`links`, `seenCompanies` (a `Set`, kept as an insertion-ordered list), plus a
count of how many times the duplicate-skip branch (lines 1413-1416, observable
through its `console.log`) was taken. -/
structure TState where
  nodes : List PNode
  links : List Link
  seen : List NodeKey
  skips : ℕ
deriving DecidableEq, Repr

/-- Cumulative percentage for a child at line 1464:
`sh.effective_percentage || ((effectivePercentage * (sh.percentage || 100)) / 100)`. -/
def childEffective (eff : ℚ) (c : ONode) : ℚ :=
  jsOrQ c.effective_percentage (eff * jsOrQ c.percentage 100 / 100)

/-- `nodeName` at line 1382: `node.company_name || node.name`. -/
def nodeNameOf (node : ONode) : Option String :=
  jsOrS node.company_name node.name

/-- The dedup key of line 1407 for a node processed at `(x, y)`. -/
def keyOf (node : ONode) (x y : ℚ) : NodeKey :=
  mkKey node.company_number (nodeNameOf node) x y

/-- The object pushed onto `nodes` (lines 1424-1436) for a node processed at
depth `depth`, position `(x, y)`, when `nodes.length = nodeId`. -/
def pnodeOf (node : ONode) (depth : Int) (x y : ℚ) (nodeId : ℕ) : PNode :=
  ⟨nodeId, nodeNameOf node, node.company_number,
    jsOrQ node.effective_percentage
      (jsOrQ node.percentage (if depth = 0 then 100 else 0)),
    jsOrSD node.percentage_band "", jsOrQ node.shares_held 0,
    decide (node.is_company ≠ some false), depth, x, y,
    jsOrSD node.country ""⟩

/-- Lines 1418-1440: register the dedup key, push the positioned node, and
push the link to the parent when there is one. -/
def pushNode (node : ONode) (depth : Int) (x y : ℚ) (parentId : Option ℕ)
    (st : TState) : TState :=
  let nodeId := st.nodes.length
  let st1 := { st with seen := st.seen ++ [keyOf node x y] }
  let st2 := { st1 with nodes := st1.nodes ++ [pnodeOf node depth x y nodeId] }
  match parentId with
  | some pid => { st2 with links := st2.links ++ [⟨pid, nodeId⟩] }
  | none => st2

mutual
/-- Fueled `traverseTree(node, depth, x, y, parentId, effectivePercentage)`
(lines 1378-1469); the wrappers supply sufficient fuel, so the `fuel = 0`
branch is never taken. -/
def traverseTreeF : ℕ → ONode → Int → ℚ → ℚ → Option ℕ → ℚ → TState → TState
  | 0, _, _, _, _, _, _, st => st
  | f + 1, node, depth, x, y, parentId, eff, st =>
    -- skip virtual root in inverted mode (lines 1385-1402)
    if depth = -1 ∧ nodeNameOf node = some "Ultimate Beneficial Owners" then
      let children := node.children
      let childY := y + 150
      let totalWidth := sumWidths children
      let currentX := x - totalWidth / 2
      traverseUboF f children childY currentX st
    else
      if st.seen.contains (keyOf node x y) then
        { st with skips := st.skips + 1 }    -- lines 1413-1416
      else
        let st3 := pushNode node depth x y parentId st
        let ac := node.shareholders ++ node.children
        if ac.length > 0 then
          let childY := y + 150
          let totalWidth := sumWidths ac
          let currentX := x - totalWidth / 2
          traverseChildrenF f ac (depth + 1) childY currentX st.nodes.length eff st3
        else st3
/-- The `allChildren.forEach` loop of lines 1461-1467, advancing `currentX` by
each child's subtree width. -/
def traverseChildrenF : ℕ → List ONode → Int → ℚ → ℚ → ℕ → ℚ → TState → TState
  | 0, _, _, _, _, _, _, st => st
  | _ + 1, [], _, _, _, _, _, st => st
  | f + 1, c :: rest, depth, childY, currentX, parentId, eff, st =>
    let w := getSubtreeWidth c
    let childX := currentX + w / 2
    let childEff := childEffective eff c
    let st1 := traverseTreeF f c depth childX childY (some parentId) childEff st
    traverseChildrenF f rest depth childY (currentX + w) parentId eff st1
/-- The `children.forEach` loop of the virtual-root branch (lines 1395-1400):
each UBO subtree starts at depth 0 with no parent and 100 cumulative. -/
def traverseUboF : ℕ → List ONode → ℚ → ℚ → TState → TState
  | 0, _, _, _, st => st
  | _ + 1, [], _, _, st => st
  | f + 1, c :: rest, childY, currentX, st =>
    let w := getSubtreeWidth c
    let childX := currentX + w / 2
    let st1 := traverseTreeF f c 0 childX childY none 100 st
    traverseUboF f rest childY (currentX + w) st1
end

/-- One non-inverted layout run (lines 1471-1478): start at the horizontal
center of the tree, `y = 50`, depth 0, no parent, cumulative 100. -/
def runLayout (tree : ONode) : TState :=
  let treeWidth := getSubtreeWidth tree
  let startX := treeWidth / 2
  traverseTreeF (osize tree) tree 0 startX 50 none 100 ⟨[], [], [], 0⟩

/-- The dedup key a positioned node was registered under. -/
def pkey (p : PNode) : NodeKey := mkKey p.companyNumber p.name p.x p.y

/-! ### UBO search and tree inversion (`findUBOs` lines 1196-1238,
inverted-tree construction lines 1244-1320, virtual root lines 1326-1334) -/

/-- One element of `currentPath` (lines 1197-1203). -/
structure PathEntry where
  name : Option String
  company_number : Option String
  percentage : ℚ
  is_company : Bool
  shares_held : Option ℚ
deriving DecidableEq, Repr

/-- One element of the `ubos` array (lines 1214-1220). -/
structure UboRec where
  name : Option String
  company_number : Option String
  is_company : Bool
  effective_percentage : ℚ
  path : List PathEntry
deriving DecidableEq, Repr

/-- The path entry recorded for a node (lines 1197-1203). -/
def pathEntryOf (node : ONode) : PathEntry :=
  ⟨jsOrS node.company_name node.name, node.company_number,
    jsOrQ node.percentage 100, decide (node.is_company ≠ some false),
    node.shares_held⟩

/-- The cumulative-percentage step of lines 1230-1231:
`newCumulative = (cumulativePercentage * (child.percentage || 0)) / 100`. -/
def cumStep (cum : ℚ) (p : Option ℚ) : ℚ :=
  cum * jsOrQ p 0 / 100

mutual
/-- Fueled `findUBOs(node, path, cumulativePercentage)` accumulating the
`ubos` array (the parallel `ownershipPaths` array duplicates `path` and
`effective_percentage` and is not consumed by the inversion, so it is not
carried). -/
def findUBOsF : ℕ → ONode → List PathEntry → ℚ → List UboRec → List UboRec
  | 0, _, _, _, acc => acc
  | f + 1, node, path, cum, acc =>
    let entry := pathEntryOf node
    let currentPath := path ++ [entry]
    let ac := node.shareholders ++ node.children
    if ac.length = 0 then
      -- leaf: this is a UBO (lines 1209-1226)
      acc ++ [⟨entry.name, entry.company_number, entry.is_company, cum, currentPath⟩]
    else
      findUBOsListF f ac currentPath cum acc
/-- The `allChildren.forEach` recursion of lines 1229-1233. -/
def findUBOsListF : ℕ → List ONode → List PathEntry → ℚ → List UboRec → List UboRec
  | 0, _, _, _, acc => acc
  | _ + 1, [], _, _, acc => acc
  | f + 1, c :: t, path, cum, acc =>
    findUBOsListF f t path cum (findUBOsF f c path (cumStep cum c.percentage) acc)
end

/-- `findUBOs(tree, [], 100)` (line 1238). -/
def findUBOs (tree : ONode) : List UboRec :=
  findUBOsF (osize tree) tree [] 100 []

/-- The node object built for one path entry by the inverted-chain
construction (both at lines 1309-1319 and at lines 1291-1300): `name` and
`company_name` both set to the entry's name, `shareholders` empty, given
depth and children. -/
def chainNode (e : PathEntry) (d : Int) (kids : List ONode) : ONode :=
  ONode.mk e.name e.name e.company_number (some e.is_company)
    (some e.percentage) none none e.shares_held none (some d) [] kids

/-- `buildChildChain(pathNodes, startDepth)` (lines 1305-1320). -/
def buildChildChain : List PathEntry → Int → List ONode
  | [], _ => []
  | f :: rest, startDepth =>
    [chainNode f startDepth (buildChildChain rest (startDepth + 1))]

/-- The per-UBO inverted chain returned at lines 1282-1302 (the imperative
loop of lines 1249-1279 builds a value that the function discards; only this
returned object matters).  `none` corresponds to the `null` filtered out at
line 1303. -/
def invertedTreeOfUbo (ubo : UboRec) : Option ONode :=
  let reversedPath := ubo.path.reverse
  match reversedPath with
  | [] => none
  | r0 :: rest =>
    some (ONode.mk r0.name r0.name r0.company_number (some r0.is_company)
      (some ubo.effective_percentage) (some ubo.effective_percentage)
      none r0.shares_held none (some 0) []
      (match rest with
       | [] => []
       | r1 :: rest2 => [chainNode r1 1 (buildChildChain rest2 2)]))

/-- `invertOwnershipTree(tree)` (lines 1192-1334): find every UBO, build one
chain per UBO, attach all chains under the synthetic virtual root. -/
def invertOwnershipTree (tree : ONode) : ONode :=
  let ubos := findUBOs tree
  let invertedTrees := (ubos.map invertedTreeOfUbo).reduceOption
  ONode.mk (some "Ultimate Beneficial Owners") (some "Ultimate Beneficial Owners")
    none (some false) (some 100) none none none none (some (-1)) [] invertedTrees

/-- Fueled body of `chainOf` (fuel supplied by the wrapper is sufficient). -/
def chainOfF : ℕ → ONode → List ONode
  | 0, _ => []
  | f + 1, n =>
    n :: (match n.children with
          | [c] => chainOfF f c
          | _ => [])

/-- The maximal single-child descent from a node: the node, then its only
child's descent (used to state what a chain-shaped inverted tree looks like). -/
def chainOf (n : ONode) : List ONode := chainOfF (osize n) n

/-! ### Node shifting inside `createOwnershipSVG` (lines 1545-1559)

Only the part of `createOwnershipSVG` that touches the node and link data is
embedded: the bounds computation and the in-place `n.x += xOffset` shift.  The
rest of the function serializes the (shifted) data to an SVG string. -/

/-- `Math.min(...nodes.map(n => n.x))` for a nonempty list. -/
def listMinQ : List ℚ → ℚ
  | [] => 0
  | h :: t => t.foldl min h

/-- The data part of `createOwnershipSVG(nodes, links)`: on an empty node list
the function returns a placeholder early (line 1546) and touches nothing;
otherwise every node's `x` is shifted by `xOffset` (lines 1549-1555) and the
links are left as they are. -/
def svgShift (nodes : List PNode) (links : List Link) : List PNode × List Link :=
  if nodes = [] then (nodes, links)
  else
    let minX := listMinQ (nodes.map (fun n => n.x)) - 100  -- left padding
    let xOffset := if minX < 50 then 50 - minX else 0
    (nodes.map (fun n => { n with x := n.x + xOffset }), links)

/-! ### Single-path trees and the inversion property (claim C4) -/

/-- A single-path ownership tree: a root and a list of descendants, each the
sole child (via the `children` array) of the previous one, carrying a display
name and an optional percentage. -/
def mkChain : (Option String × Option ℚ) → List (Option String × Option ℚ) → ONode
  | r, [] => ONode.mk r.1 none none none r.2 none none none none none [] []
  | r, d :: rest =>
    ONode.mk r.1 none none none r.2 none none none none none [] [mkChain d rest]

/-- The path entry `findUBOs` records for a node of `mkChain`. -/
def chainEntry (p : Option String × Option ℚ) : PathEntry :=
  ⟨p.1, none, jsOrQ p.2 100, true, none⟩

/-- Last element of the root-to-leaf node list. -/
def lastOf (r : Option String × Option ℚ) (ds : List (Option String × Option ℚ)) :
    Option String × Option ℚ :=
  ds.getLastD r


/-- The role of the incoming record is already present in the entry. -/
def roleIn (r : SRec) (e : SEntry) : Prop :=
  ∀ ρ, r.role = some ρ → ρ ≠ "" → ρ ∈ e.roles


/-! ### Traversal invariant statements (claims C1 and C2) -/

/-- Invariants maintained by the layout traversal over its accumulator state:
ids are the positional indices, every link relates two emitted nodes whose
recorded depths differ by one, no two links share a target, every emitted
node's dedup key has been registered, and no two emitted nodes share a key. -/
structure GoodSt (st : TState) : Prop where
  ids : st.nodes.map PNode.id = List.range st.nodes.length
  linkDepth : ∀ l ∈ st.links, ∃ (hs : l.source < st.nodes.length)
    (ht : l.target < st.nodes.length),
    (st.nodes.get ⟨l.target, ht⟩).depth = (st.nodes.get ⟨l.source, hs⟩).depth + 1
  targetsNodup : (st.links.map Link.target).Nodup
  keysSeen : ∀ p ∈ st.nodes, pkey p ∈ st.seen
  keysNodup : (st.nodes.map pkey).Nodup

/-- The traversal only ever appends to `nodes`, `links` and `seen`, and never
decrements `skips`. -/
structure Grows (st st' : TState) : Prop where
  nodes : ∃ xs, st'.nodes = st.nodes ++ xs
  links : ∃ xs, st'.links = st.links ++ xs
  seen : ∃ xs, st'.seen = st.seen ++ xs
  skips : st.skips ≤ st'.skips


/-! ### Concrete input fixtures used by the scenario conjuncts, witnesses and
counterexamples -/

/-- Three distinct companies: `R` with children `A` and `B` (no duplicate
registry numbers, no skips). -/
def tTri : ONode :=
  ONode.mk (some "R") none (some "10000000") none none none none none none none []
    [ONode.mk (some "A") none (some "20000000") none (some 50) none none none none
      none [] [],
     ONode.mk (some "B") none (some "40000000") none (some 50) none none none none
      none [] []]

/-- Five nodes in which the company with registry number `30000000` appears as
a shareholder of both `A` and `B` (the dedup scenario of the spec). -/
def tDup : ONode :=
  ONode.mk (some "R") none (some "10000000") none none none none none none none []
    [ONode.mk (some "A") none (some "20000000") none (some 50) none none none none
      none []
      [ONode.mk (some "C") none (some "30000000") none (some 10) none none none
        none none [] []],
     ONode.mk (some "B") none (some "40000000") none (some 50) none none none none
      none []
      [ONode.mk (some "C") none (some "30000000") none (some 20) none none none
        none none [] []]]

/-- A root with seven leaf children (the wide fan-out case of
`getSubtreeWidth`). -/
def tSeven : ONode :=
  ONode.mk (some "R") none (some "10000000") none none none none none none none []
    [ONode.mk (some "c1") none (some "00000001") none (some 10) none none none none none [] [],
     ONode.mk (some "c2") none (some "00000002") none (some 10) none none none none none [] [],
     ONode.mk (some "c3") none (some "00000003") none (some 10) none none none none none [] [],
     ONode.mk (some "c4") none (some "00000004") none (some 10) none none none none none [] [],
     ONode.mk (some "c5") none (some "00000005") none (some 10) none none none none none [] [],
     ONode.mk (some "c6") none (some "00000006") none (some 10) none none none none none [] [],
     ONode.mk (some "c7") none (some "00000007") none (some 10) none none none none none [] []]

/-- The spec scenario
`{name:"X Ltd", children:[{name:"Y Ltd", percentage:60, children:[{name:"Bob", percentage:50}]}]}`. -/
def xyzTree : ONode :=
  ONode.mk (some "X Ltd") none none none none none none none none none []
    [ONode.mk (some "Y Ltd") none none none (some 60) none none none none none []
      [ONode.mk (some "Bob") none none none (some 50) none none none none none [] []]]

/-- A parent whose only shareholder carries the malformed percentage `-50`. -/
def negTree : ONode :=
  ONode.mk (some "X") none none none none none none none none none []
    [ONode.mk (some "Bob") none none none (some (-50)) none none none none none [] []]

/-! ### Size accounting for the recursion fuel -/

lemma osize_pos (n : ONode) : 1 ≤ osize n := by
  cases n; simp [osize]; omega

lemma osize_decomp (n : ONode) :
    osize n = 1 + osize.osizeL n.shareholders + osize.osizeL n.children := by
  cases n; simp [osize, ONode.shareholders, ONode.children]

lemma osizeL_append (a b : List ONode) :
    osize.osizeL (a ++ b) = osize.osizeL a + osize.osizeL b := by
  induction a with
  | nil => simp [osize.osizeL]
  | cons c t ih => simp [osize.osizeL, ih]; omega

lemma osizeL_cons (c : ONode) (t : List ONode) :
    osize.osizeL (c :: t) = 1 + osize c + osize.osizeL t := rfl

lemma osize_children_le (n : ONode) (f : ℕ) (h : osize n ≤ f + 1) :
    osize.osizeL (n.shareholders ++ n.children) ≤ f := by
  rw [osizeL_append]
  have := osize_decomp n
  omega

lemma countList_append (a b : List ONode) :
    countNodes.countList (a ++ b) = countNodes.countList a + countNodes.countList b := by
  induction a with
  | nil => simp [countNodes.countList]
  | cons c t ih => simp [countNodes.countList, ih]; omega

lemma countNodes_decomp (n : ONode) :
    countNodes n = 1 + countNodes.countList (n.shareholders ++ n.children) := by
  cases n
  simp [countNodes, ONode.shareholders, ONode.children, countList_append]
  omega

lemma countNodes_pos (n : ONode) : 1 ≤ countNodes n := by
  rw [countNodes_decomp]; omega

/-! ### `getSubtreeWidth` facts (claim C3) -/

lemma width_fuel (f : ℕ) :
    (∀ n g, osize n ≤ f → osize n ≤ g →
      getSubtreeWidthF f n = getSubtreeWidthF g n) ∧
    (∀ l g, osize.osizeL l ≤ f → osize.osizeL l ≤ g →
      sumWidthsF f l = sumWidthsF g l) := by
  induction f with
  | zero =>
    constructor
    · intro n g h _
      have := osize_pos n
      omega
    · intro l g h _
      cases l with
      | nil => cases g <;> rfl
      | cons c t => rw [osizeL_cons] at h; omega
  | succ f ih =>
    constructor
    · intro n g h hg
      have hpos := osize_pos n
      cases g with
      | zero => omega
      | succ g =>
        show getSubtreeWidthF (f + 1) n = getSubtreeWidthF (g + 1) n
        simp only [getSubtreeWidthF]
        have hf : osize.osizeL (n.shareholders ++ n.children) ≤ f :=
          osize_children_le n f h
        have hg' : osize.osizeL (n.shareholders ++ n.children) ≤ g :=
          osize_children_le n g hg
        rw [ih.2 _ g hf hg']
    · intro l g h hg
      cases l with
      | nil => cases g <;> rfl
      | cons c t =>
        rw [osizeL_cons] at h hg
        cases g with
        | zero => omega
        | succ g =>
          show getSubtreeWidthF f c + sumWidthsF f t
              = getSubtreeWidthF g c + sumWidthsF g t
          rw [ih.1 c g (by omega) (by omega), ih.2 t g (by omega) (by omega)]

lemma gswF_eq_getSubtreeWidth (f : ℕ) (n : ONode) (h : osize n ≤ f) :
    getSubtreeWidthF f n = getSubtreeWidth n :=
  (width_fuel f).1 n (osize n) h le_rfl

lemma sumWidthsF_eq (f : ℕ) (l : List ONode) (h : osize.osizeL l ≤ f) :
    sumWidthsF f l = sumWidths l := by
  induction l generalizing f with
  | nil => cases f <;> rfl
  | cons c t ih =>
    rw [osizeL_cons] at h
    cases f with
    | zero => omega
    | succ f =>
      show getSubtreeWidthF f c + sumWidthsF f t = sumWidths (c :: t)
      rw [gswF_eq_getSubtreeWidth f c (by omega), ih f (by omega)]
      simp [sumWidths]

/-- Unfolding of `getSubtreeWidth` as the source writes it. -/
lemma getSubtreeWidth_eq (n : ONode) :
    getSubtreeWidth n =
      (if (n.shareholders ++ n.children).length = 0 then 250
       else if 6 < (n.shareholders ++ n.children).length then
         ((n.shareholders ++ n.children).length : ℚ) * 200
       else max 250 (sumWidths (n.shareholders ++ n.children))) := by
  show getSubtreeWidthF (osize n) n = _
  have hpos := osize_pos n
  rcases Nat.exists_eq_add_of_le hpos with ⟨f, hf⟩
  rw [show osize n = f + 1 by omega]
  simp only [getSubtreeWidthF]
  rw [sumWidthsF_eq f _ (osize_children_le n f (by omega))]

lemma getSubtreeWidth_ge (n : ONode) : 250 ≤ getSubtreeWidth n := by
  suffices h : ∀ f n, osize n ≤ f → (250 : ℚ) ≤ getSubtreeWidthF f n from
    h (osize n) n le_rfl
  intro f
  induction f with
  | zero => intro n h; have := osize_pos n; omega
  | succ f ih =>
    intro n _
    simp only [getSubtreeWidthF]
    split
    · exact le_rfl
    · split
      · rename_i hlen
        have h7 : (7 : ℚ) ≤ ((n.shareholders ++ n.children).length : ℚ) := by
          exact_mod_cast hlen
        nlinarith
      · exact le_max_left _ _

/-! ### Traversal invariants (claims C1 and C2) -/

lemma Grows.rfl (st : TState) : Grows st st :=
  ⟨⟨[], by simp⟩, ⟨[], by simp⟩, ⟨[], by simp⟩, le_rfl⟩

lemma Grows.comp {a b c : TState} (g1 : Grows a b) (g2 : Grows b c) : Grows a c := by
  obtain ⟨⟨n1, hn1⟩, ⟨l1, hl1⟩, ⟨s1, hs1⟩, hk1⟩ := g1
  obtain ⟨⟨n2, hn2⟩, ⟨l2, hl2⟩, ⟨s2, hs2⟩, hk2⟩ := g2
  exact ⟨⟨n1 ++ n2, by simp [hn2, hn1]⟩, ⟨l1 ++ l2, by simp [hl2, hl1]⟩,
    ⟨s1 ++ s2, by simp [hs2, hs1]⟩, le_trans hk1 hk2⟩

lemma get_append_left' {α : Type} (xs ys : List α) (i : ℕ) (h : i < xs.length)
    (h2 : i < (xs ++ ys).length) : (xs ++ ys).get ⟨i, h2⟩ = xs.get ⟨i, h⟩ := by
  simp [List.get_eq_getElem, List.getElem_append_left h]

lemma get_concat_self {α : Type} (xs : List α) (a : α)
    (h : xs.length < (xs ++ [a]).length) : (xs ++ [a]).get ⟨xs.length, h⟩ = a := by
  simp [List.get_eq_getElem]

/-- A parent reference with the right depth survives state growth. -/
lemma parent_ok_mono {st st' : TState} (g : Grows st st') {p : ℕ} {d : Int}
    (h : ∃ hp : p < st.nodes.length, (st.nodes.get ⟨p, hp⟩).depth + 1 = d) :
    ∃ hp : p < st'.nodes.length, (st'.nodes.get ⟨p, hp⟩).depth + 1 = d := by
  obtain ⟨xs, hxs⟩ := g.nodes
  obtain ⟨hp, hd⟩ := h
  have hp' : p < st'.nodes.length := by
    rw [hxs, List.length_append]; omega
  refine ⟨hp', ?_⟩
  have : st'.nodes.get ⟨p, hp'⟩ = st.nodes.get ⟨p, hp⟩ := by
    rw [List.get_of_eq hxs ⟨p, hp'⟩]
    exact get_append_left' _ _ _ hp _
  rw [this]; exact hd

@[simp] lemma pnodeOf_id (n : ONode) (d : Int) (x y : ℚ) (i : ℕ) :
    (pnodeOf n d x y i).id = i := rfl

@[simp] lemma pnodeOf_depth (n : ONode) (d : Int) (x y : ℚ) (i : ℕ) :
    (pnodeOf n d x y i).depth = d := rfl

@[simp] lemma pkey_pnodeOf (n : ONode) (d : Int) (x y : ℚ) (i : ℕ) :
    pkey (pnodeOf n d x y i) = keyOf n x y := rfl

lemma pushNode_nodes (n : ONode) (d : Int) (x y : ℚ) (pid : Option ℕ) (st : TState) :
    (pushNode n d x y pid st).nodes
      = st.nodes ++ [pnodeOf n d x y st.nodes.length] := by
  cases pid <;> rfl

lemma pushNode_seen (n : ONode) (d : Int) (x y : ℚ) (pid : Option ℕ) (st : TState) :
    (pushNode n d x y pid st).seen = st.seen ++ [keyOf n x y] := by
  cases pid <;> rfl

lemma pushNode_links (n : ONode) (d : Int) (x y : ℚ) (pid : Option ℕ) (st : TState) :
    (pushNode n d x y pid st).links
      = st.links ++ (match pid with
                     | some p => [⟨p, st.nodes.length⟩]
                     | none => []) := by
  cases pid <;> simp [pushNode]

lemma pushNode_skips (n : ONode) (d : Int) (x y : ℚ) (pid : Option ℕ) (st : TState) :
    (pushNode n d x y pid st).skips = st.skips := by
  cases pid <;> rfl

lemma pushNode_grows (n : ONode) (d : Int) (x y : ℚ) (pid : Option ℕ) (st : TState) :
    Grows st (pushNode n d x y pid st) :=
  ⟨⟨_, pushNode_nodes ..⟩, ⟨_, pushNode_links ..⟩, ⟨_, pushNode_seen ..⟩,
    le_of_eq (pushNode_skips ..).symm⟩

lemma links_target_lt {st : TState} (hg : GoodSt st) :
    ∀ l ∈ st.links, l.target < st.nodes.length := by
  intro l hl
  obtain ⟨_, ht, _⟩ := hg.linkDepth l hl
  exact ht

lemma pushNode_good (n : ONode) (d : Int) (x y : ℚ) (pid : Option ℕ) (st : TState)
    (hg : GoodSt st) (hfresh : keyOf n x y ∉ st.seen)
    (hpid : ∀ p, pid = some p → ∃ hp : p < st.nodes.length,
      (st.nodes.get ⟨p, hp⟩).depth + 1 = d) :
    GoodSt (pushNode n d x y pid st) := by
  have hnodes := pushNode_nodes n d x y pid st
  have hlinks := pushNode_links n d x y pid st
  have hseen := pushNode_seen n d x y pid st
  have hlen : (pushNode n d x y pid st).nodes.length = st.nodes.length + 1 := by
    rw [hnodes]; simp
  constructor
  · -- ids stay the positional indices
    rw [hnodes, List.map_append, hg.ids]
    simp [List.range_succ]
  · -- every link's target depth is its source depth + 1
    intro l hl
    rw [hlinks, List.mem_append] at hl
    rcases hl with hl | hl
    · obtain ⟨hs, ht, hdep⟩ := hg.linkDepth l hl
      have hs' : l.source < (pushNode n d x y pid st).nodes.length := by omega
      have ht' : l.target < (pushNode n d x y pid st).nodes.length := by omega
      refine ⟨hs', ht', ?_⟩
      rw [List.get_of_eq hnodes ⟨l.target, ht'⟩, List.get_of_eq hnodes ⟨l.source, hs'⟩,
        get_append_left' _ _ _ ht _, get_append_left' _ _ _ hs _]
      exact hdep
    · cases pid with
      | none => simp at hl
      | some p =>
        obtain ⟨hp, hdp⟩ := hpid p rfl
        have hl' : l = ⟨p, st.nodes.length⟩ := by simpa using hl
        subst hl'
        have hs' : p < (pushNode n d x y (some p) st).nodes.length := by
          simp only [hlen]; omega
        have ht' : st.nodes.length < (pushNode n d x y (some p) st).nodes.length := by
          simp only [hlen]; omega
        refine ⟨hs', ht', ?_⟩
        rw [List.get_of_eq hnodes ⟨st.nodes.length, ht'⟩,
          List.get_of_eq hnodes ⟨p, hs'⟩,
          get_append_left' _ _ _ hp _, get_concat_self]
        simp only [pnodeOf_depth]
        omega
  · -- no two links share a target
    rw [hlinks]
    cases pid with
    | none => simpa using hg.targetsNodup
    | some p =>
      rw [List.map_append, List.nodup_append]
      refine ⟨hg.targetsNodup, by simp, ?_⟩
      intro t ht ht2
      simp only [List.map_cons, List.map_nil, List.mem_singleton] at ht2
      obtain ⟨l, hl, rfl⟩ := List.mem_map.mp ht
      have := links_target_lt hg l hl
      omega
  · -- every emitted node's key is registered
    intro p hp
    rw [hnodes, List.mem_append] at hp
    rw [hseen]
    rcases hp with hp | hp
    · exact List.mem_append_left _ (hg.keysSeen p hp)
    · have : p = pnodeOf n d x y st.nodes.length := by simpa using hp
      subst this
      simp
  · -- no two emitted nodes share a key
    rw [hnodes, List.map_append, List.nodup_append]
    refine ⟨hg.keysNodup, by simp, ?_⟩
    intro k hk hk2
    simp only [List.map_cons, List.map_nil, List.mem_singleton, pkey_pnodeOf] at hk2
    subst hk2
    obtain ⟨q, hq, hqk⟩ := List.mem_map.mp hk
    exact hfresh (hqk ▸ hg.keysSeen q hq)

/-- Master lemma for the layout traversal, by induction on the fuel: starting
from a state satisfying the invariants, with a nonnegative depth and a parent
reference consistent with the depth, the traversal (1) only grows the state,
(2) preserves the invariants, and (3) when no duplicate was skipped, emits
exactly `countNodes` nodes, each non-root one with exactly one link. -/
lemma trav_main : ∀ f : ℕ,
    (∀ n (depth : Int) (x y : ℚ) (pid : Option ℕ) (eff : ℚ) (st : TState),
      osize n ≤ f → 0 ≤ depth → GoodSt st →
      (∀ p, pid = some p → ∃ hp : p < st.nodes.length,
        (st.nodes.get ⟨p, hp⟩).depth + 1 = depth) →
      Grows st (traverseTreeF f n depth x y pid eff st) ∧
      GoodSt (traverseTreeF f n depth x y pid eff st) ∧
      ((traverseTreeF f n depth x y pid eff st).skips = st.skips →
        (traverseTreeF f n depth x y pid eff st).nodes.length
          = st.nodes.length + countNodes n ∧
        (traverseTreeF f n depth x y pid eff st).links.length
            + (if pid.isSome then 0 else 1)
          = st.links.length + countNodes n)) ∧
    (∀ cs (depth : Int) (cy cx : ℚ) (parent : ℕ) (eff : ℚ) (st : TState),
      osize.osizeL cs ≤ f → 0 ≤ depth → GoodSt st →
      (∃ hp : parent < st.nodes.length,
        (st.nodes.get ⟨parent, hp⟩).depth + 1 = depth) →
      Grows st (traverseChildrenF f cs depth cy cx parent eff st) ∧
      GoodSt (traverseChildrenF f cs depth cy cx parent eff st) ∧
      ((traverseChildrenF f cs depth cy cx parent eff st).skips = st.skips →
        (traverseChildrenF f cs depth cy cx parent eff st).nodes.length
          = st.nodes.length + countNodes.countList cs ∧
        (traverseChildrenF f cs depth cy cx parent eff st).links.length
          = st.links.length + countNodes.countList cs)) := by
  intro f
  induction f with
  | zero =>
    constructor
    · intro n depth x y pid eff st hsz _ _ _
      have := osize_pos n
      omega
    · intro cs depth cy cx parent eff st hsz _ hg _
      cases cs with
      | nil =>
        refine ⟨Grows.rfl st, hg, fun _ => ?_⟩
        simp [traverseChildrenF, countNodes.countList]
      | cons c t => rw [osizeL_cons] at hsz; omega
  | succ f ih =>
    constructor
    · -- one node
      intro n depth x y pid eff st hsz hd hg hpid
      have hvr : ¬ (depth = -1 ∧ nodeNameOf n = some "Ultimate Beneficial Owners") := by
        rintro ⟨h1, -⟩; omega
      simp only [traverseTreeF, if_neg hvr]
      by_cases hseen : st.seen.contains (keyOf n x y)
      · rw [if_pos hseen]
        refine ⟨⟨⟨[], by simp⟩, ⟨[], by simp⟩, ⟨[], by simp⟩, by simp⟩,
          ⟨hg.ids, hg.linkDepth, hg.targetsNodup, hg.keysSeen, hg.keysNodup⟩,
          fun habs => ?_⟩
        exfalso
        have : st.skips + 1 = st.skips := habs
        omega
      · rw [if_neg hseen]
        have hfresh : keyOf n x y ∉ st.seen := by
          intro hmem
          exact hseen (List.elem_iff.mpr hmem)
        have hg3 : GoodSt (pushNode n depth x y pid st) :=
          pushNode_good n depth x y pid st hg hfresh hpid
        have g3 : Grows st (pushNode n depth x y pid st) := pushNode_grows ..
        have hlen3 : (pushNode n depth x y pid st).nodes.length
            = st.nodes.length + 1 := by
          rw [pushNode_nodes]; simp
        have hlinks3 : (pushNode n depth x y pid st).links.length
            = st.links.length + (if pid.isSome then 1 else 0) := by
          rw [pushNode_links]
          cases pid <;> simp
        by_cases hac : (n.shareholders ++ n.children).length > 0
        · rw [if_pos hac]
          have hkids := (ih).2 (n.shareholders ++ n.children) (depth + 1)
            (y + 150) (x - sumWidths (n.shareholders ++ n.children) / 2)
            st.nodes.length eff (pushNode n depth x y pid st)
            (osize_children_le n f hsz) (by omega) hg3 ?parok
          case parok =>
            have hb : st.nodes.length < (pushNode n depth x y pid st).nodes.length := by
              omega
            refine ⟨hb, ?_⟩
            rw [List.get_of_eq (pushNode_nodes n depth x y pid st) ⟨st.nodes.length, hb⟩,
              get_concat_self]
            simp
          obtain ⟨gk, hgk, cntk⟩ := hkids
          refine ⟨g3.comp gk, hgk, fun hsk => ?_⟩
          have hsk3 : (traverseChildrenF f (n.shareholders ++ n.children) (depth + 1)
              (y + 150) (x - sumWidths (n.shareholders ++ n.children) / 2)
              st.nodes.length eff (pushNode n depth x y pid st)).skips
              = (pushNode n depth x y pid st).skips := by
            have h1 := (pushNode_grows n depth x y pid st).skips
            have h2 := gk.skips
            have h3 := pushNode_skips n depth x y pid st
            omega
          obtain ⟨cn, cl⟩ := cntk hsk3
          have hcnt := countNodes_decomp n
          constructor
          · rw [cn, hlen3]; omega
          · rw [cl, hlinks3]
            cases pid <;> simp <;> omega
        · rw [if_neg hac]
          have hac0 : (n.shareholders ++ n.children) = [] := by
            cases h : n.shareholders ++ n.children with
            | nil => rfl
            | cons a b => rw [h] at hac; simp at hac
          refine ⟨g3, hg3, fun _ => ?_⟩
          have hcnt := countNodes_decomp n
          rw [hac0] at hcnt
          simp only [countNodes.countList] at hcnt
          constructor
          · rw [hlen3]; omega
          · rw [hlinks3]
            cases pid <;> simp <;> omega
    · -- a list of children
      intro cs depth cy cx parent eff st hsz hd hg hpar
      cases cs with
      | nil =>
        refine ⟨Grows.rfl st, hg, fun _ => ?_⟩
        simp [traverseChildrenF, countNodes.countList]
      | cons c rest =>
        rw [osizeL_cons] at hsz
        simp only [traverseChildrenF]
        have hnode := (ih).1 c depth (cx + getSubtreeWidth c / 2) cy (some parent)
          (childEffective eff c) st (by omega) hd hg
          (by intro p hp; cases hp; exact hpar)
        obtain ⟨g1, hg1, cnt1⟩ := hnode
        have hrest := (ih).2 rest depth cy (cx + getSubtreeWidth c) parent eff
          (traverseTreeF f c depth (cx + getSubtreeWidth c / 2) cy (some parent)
            (childEffective eff c) st)
          (by omega) hd hg1 (parent_ok_mono g1 hpar)
        obtain ⟨g2, hg2, cnt2⟩ := hrest
        refine ⟨g1.comp g2, hg2, fun hsk => ?_⟩
        have hsk1 : (traverseTreeF f c depth (cx + getSubtreeWidth c / 2) cy
            (some parent) (childEffective eff c) st).skips = st.skips := by
          have h1 := g1.skips
          have h2 := g2.skips
          omega
        have hsk2 := hsk.trans hsk1.symm
        obtain ⟨n1, l1⟩ := cnt1 hsk1
        obtain ⟨n2, l2⟩ := cnt2 (by omega)
        simp only [Option.isSome_some, if_true, if_pos] at l1
        constructor
        · rw [n2, n1]
          simp [countNodes.countList]
          omega
        · rw [l2]
          simp only [countNodes.countList]
          omega

/-- The initial accumulator state satisfies the invariants. -/
lemma goodSt_init : GoodSt ⟨[], [], [], 0⟩ := by
  constructor
  · simp
  · intro l hl; simp at hl
  · simp
  · intro p hp; simp at hp
  · simp

lemma runLayout_good (t : ONode) : GoodSt (runLayout t) := by
  have h := (trav_main (osize t)).1 t 0 (getSubtreeWidth t / 2) 50 none 100
    ⟨[], [], [], 0⟩ le_rfl le_rfl goodSt_init (by intro p hp; cases hp)
  exact h.2.1

lemma runLayout_counts (t : ONode) (h : (runLayout t).skips = 0) :
    (runLayout t).nodes.length = countNodes t ∧
    (runLayout t).links.length + 1 = countNodes t := by
  have hm := (trav_main (osize t)).1 t 0 (getSubtreeWidth t / 2) 50 none 100
    ⟨[], [], [], 0⟩ le_rfl le_rfl goodSt_init (by intro p hp; cases hp)
  have hc := hm.2.2 h
  simpa using hc

/-- In a state with pairwise-distinct link targets, at most one link can point
at any value. -/
lemma filter_target_le_one (ls : List Link) (h : (ls.map Link.target).Nodup)
    (v : ℕ) : (ls.filter (fun l => l.target = v)).length ≤ 1 := by
  induction ls with
  | nil => simp
  | cons l t ih =>
    simp only [List.map_cons, List.nodup_cons] at h
    by_cases hv : l.target = v
    · have ht0 : t.filter (fun l => l.target = v) = [] := by
        rw [List.filter_eq_nil_iff]
        intro a ha hav
        apply h.1
        rw [List.mem_map]
        exact ⟨a, ha, by simp at hav; omega⟩
      simp [List.filter_cons, hv, ht0]
    · simp only [List.filter_cons, hv, if_neg, decide_eq_true_eq, ite_false]
      exact ih h.2

/-- In a state satisfying the invariants, a node member with a given id is the
entry at that index. -/
lemma node_at_own_id {st : TState} (hg : GoodSt st) {p : PNode}
    (hp : p ∈ st.nodes) :
    ∃ h : p.id < st.nodes.length, st.nodes.get ⟨p.id, h⟩ = p := by
  obtain ⟨⟨i, hi⟩, hget⟩ := List.mem_iff_get.mp hp
  have hid : p.id = i := by
    have h1 : (st.nodes.map PNode.id)[i]? = some p.id := by
      simp [List.getElem?_map, List.getElem?_eq_getElem hi]
      rw [← hget]
      simp [List.get_eq_getElem]
    rw [hg.ids, List.getElem?_range hi] at h1
    exact (Option.some.inj h1).symm
  subst hid
  exact ⟨hi, hget⟩

/-- Claim-level reading of the link-depth invariant: any two emitted nodes
carrying a link's endpoint ids have depths differing by exactly one. -/
lemma goodSt_depth_step {st : TState} (hg : GoodSt st) :
    ∀ l ∈ st.links, ∀ ns ∈ st.nodes, ∀ nt ∈ st.nodes,
      ns.id = l.source → nt.id = l.target → nt.depth = ns.depth + 1 := by
  intro l hl ns hns nt hnt hs ht
  obtain ⟨hs1, hns1⟩ := node_at_own_id hg hns
  obtain ⟨ht1, hnt1⟩ := node_at_own_id hg hnt
  obtain ⟨hs2, ht2, hdep⟩ := hg.linkDepth l hl
  have e1 : ns = st.nodes.get ⟨l.source, hs2⟩ := by
    rw [← hns1]
    congr 1
    simp [hs]
  have e2 : nt = st.nodes.get ⟨l.target, ht2⟩ := by
    rw [← hnt1]
    congr 1
    simp [ht]
  rw [e1, e2, hdep]

lemma pathEntryOf_mk_chain (nm : Option String) (p : Option ℚ) (kids : List ONode) :
    pathEntryOf (ONode.mk nm none none none p none none none none none [] kids)
      = ⟨nm, none, jsOrQ p 100, true, none⟩ := rfl

lemma findUBOsListF_nil (f : ℕ) (path : List PathEntry) (cum : ℚ)
    (acc : List UboRec) : findUBOsListF f [] path cum acc = acc := by
  cases f <;> rfl

lemma mkChain_percentage (r : Option String × Option ℚ)
    (ds : List (Option String × Option ℚ)) : (mkChain r ds).percentage = r.2 := by
  cases ds <;> rfl

lemma osize_mkChain_cons (r d : Option String × Option ℚ)
    (rest : List (Option String × Option ℚ)) :
    osize (mkChain r (d :: rest)) = 2 + osize (mkChain d rest) := by
  show 1 + osize.osizeL [] + osize.osizeL [mkChain d rest] = _
  simp [osize.osizeL]
  omega

/-- `findUBOs` on a single-path tree: exactly one UBO, whose path lists every
node from root to leaf and whose effective percentage is the fold of the
cumulative-percentage step over the descendants. -/
lemma findUBOsF_chain :
    ∀ (ds : List (Option String × Option ℚ)) (r : Option String × Option ℚ)
      (path : List PathEntry) (cum : ℚ) (acc : List UboRec) (f : ℕ),
      osize (mkChain r ds) ≤ f →
      findUBOsF f (mkChain r ds) path cum acc
        = acc ++ [⟨(lastOf r ds).1, none, true,
            ds.foldl (fun c d => cumStep c d.2) cum,
            path ++ (r :: ds).map chainEntry⟩] := by
  intro ds
  induction ds with
  | nil =>
    intro r path cum acc f hf
    obtain ⟨f', rfl⟩ : ∃ f', f = f' + 1 :=
      ⟨f - 1, by have := osize_pos (mkChain r []); omega⟩
    show findUBOsF (f' + 1) (mkChain r []) path cum acc = _
    simp [findUBOsF, mkChain, ONode.shareholders, ONode.children,
      pathEntryOf_mk_chain, lastOf, chainEntry]
  | cons d rest ih =>
    intro r path cum acc f hf
    rw [osize_mkChain_cons] at hf
    have h1 : 1 ≤ osize (mkChain d rest) := osize_pos _
    obtain ⟨f', rfl⟩ : ∃ f', f = f' + 2 := ⟨f - 2, by omega⟩
    show findUBOsF (f' + 1 + 1) (mkChain r (d :: rest)) path cum acc = _
    simp only [findUBOsF, mkChain, ONode.shareholders, ONode.children,
      pathEntryOf_mk_chain, List.nil_append, List.length_cons, List.length_nil]
    rw [if_neg (by omega)]
    show findUBOsListF (f' + 1) [mkChain d rest] _ cum acc = _
    simp only [findUBOsListF]
    rw [findUBOsListF_nil, mkChain_percentage]
    show findUBOsF f' (mkChain d rest)
        (path ++ [⟨r.1, none, jsOrQ r.2 100, true, none⟩])
        (cumStep cum d.2) acc = _
    refine (ih d (path ++ [⟨r.1, none, jsOrQ r.2 100, true, none⟩])
      (cumStep cum d.2) acc f' (by omega)).trans ?_
    simp only [lastOf, chainEntry, List.foldl_cons, List.map_cons,
      List.append_assoc, List.singleton_append]
    cases rest <;> simp [List.getLastD]

/-- Folding the cumulative step multiplies in each percentage (absent ⇒ 0)
and divides by 100 once per hop. -/
lemma foldl_cumStep (ds : List (Option String × Option ℚ)) :
    ∀ cum : ℚ, ds.foldl (fun c d => cumStep c d.2) cum
      = cum * (ds.map (fun d => jsOrQ d.2 0)).prod / 100 ^ ds.length := by
  induction ds with
  | nil => intro cum; simp
  | cons d rest ih =>
    intro cum
    rw [List.foldl_cons, ih (cumStep cum d.2)]
    simp only [cumStep, List.map_cons, List.prod_cons, List.length_cons]
    rw [pow_succ]
    ring

lemma osizeL_children_le (n : ONode) : osize.osizeL n.children ≤ osize n - 1 := by
  rw [osize_decomp n]
  omega

lemma chainOfF_fuel : ∀ f : ℕ, ∀ (n : ONode) (g : ℕ),
    osize n ≤ f → osize n ≤ g → chainOfF f n = chainOfF g n := by
  intro f
  induction f with
  | zero => intro n g h _; have := osize_pos n; omega
  | succ f ih =>
    intro n g h hg
    have hpos := osize_pos n
    cases g with
    | zero => omega
    | succ g =>
      show chainOfF (f + 1) n = chainOfF (g + 1) n
      simp only [chainOfF]
      rcases hch : n.children with _ | ⟨c, _ | ⟨c2, t⟩⟩ <;> simp only []
      have hc : osize c ≤ osize n - 2 := by
        have := osize_decomp n
        rw [hch, osizeL_cons] at this
        have := osize.osizeL.eq_1  -- osizeL [] = 0
        simp only [osize.osizeL] at this
        omega
      rw [ih c g (by omega) (by omega)]

lemma chainOf_cons {n c : ONode} (h : n.children = [c]) :
    chainOf n = n :: chainOf c := by
  show chainOfF (osize n) n = _
  have hpos := osize_pos n
  obtain ⟨f, hf⟩ : ∃ f, osize n = f + 1 := ⟨osize n - 1, by omega⟩
  rw [hf]
  simp only [chainOfF, h]
  have hc : osize c ≤ f - 1 := by
    have := osize_decomp n
    rw [h, osizeL_cons] at this
    simp only [osize.osizeL] at this
    omega
  have hcpos := osize_pos c
  rw [chainOfF_fuel f c (osize c) (by omega) le_rfl]
  rfl

lemma chainOf_nil {n : ONode} (h : n.children = []) : chainOf n = [n] := by
  show chainOfF (osize n) n = _
  have hpos := osize_pos n
  obtain ⟨f, hf⟩ : ∃ f, osize n = f + 1 := ⟨osize n - 1, by omega⟩
  rw [hf]
  simp [chainOfF, h]

@[simp] lemma chainNode_children (e : PathEntry) (d : Int) (kids : List ONode) :
    (chainNode e d kids).children = kids := rfl

@[simp] lemma chainNode_name (e : PathEntry) (d : Int) (kids : List ONode) :
    (chainNode e d kids).name = e.name := rfl

@[simp] lemma chainNode_depth (e : PathEntry) (d : Int) (kids : List ONode) :
    (chainNode e d kids).depth = some d := rfl

@[simp] lemma chainNode_percentage (e : PathEntry) (d : Int) (kids : List ONode) :
    (chainNode e d kids).percentage = some e.percentage := rfl

lemma range_map_shift (d : Int) (k : ℕ) :
    (List.range (k + 1)).map (fun i : ℕ => some (d + (i : Int)))
      = some d :: (List.range k).map (fun i : ℕ => some (d + 1 + (i : Int))) := by
  rw [List.range_succ_eq_map]
  simp only [List.map_cons, List.map_map]
  refine List.cons_eq_cons.mpr ⟨?_, ?_⟩
  · norm_num
  · apply List.map_congr_left
    intro i _
    simp only [Function.comp_apply]
    congr 1
    push_cast
    ring

/-- Projections of the single-child descent of a `buildChildChain` chain:
names follow the path entries, depths count up from the start depth, and each
node carries its entry's recorded percentage. -/
lemma chain_projs : ∀ (l : List PathEntry) (e : PathEntry) (d : Int),
    (chainOf (chainNode e d (buildChildChain l (d + 1)))).map ONode.name
        = (e :: l).map PathEntry.name ∧
    (chainOf (chainNode e d (buildChildChain l (d + 1)))).map ONode.depth
        = (List.range (l.length + 1)).map (fun i : ℕ => some (d + (i : Int))) ∧
    (chainOf (chainNode e d (buildChildChain l (d + 1)))).map ONode.percentage
        = (e :: l).map (fun p => some p.percentage) := by
  intro l
  induction l with
  | nil =>
    intro e d
    rw [show buildChildChain [] (d + 1) = [] from rfl,
      chainOf_nil (chainNode_children e d [])]
    refine ⟨rfl, ?_, rfl⟩
    simp [List.range_succ]
  | cons g rest ih =>
    intro e d
    rw [show buildChildChain (g :: rest) (d + 1)
        = [chainNode g (d + 1) (buildChildChain rest (d + 1 + 1))] from rfl,
      chainOf_cons (chainNode_children e d _)]
    obtain ⟨h1, h2, h3⟩ := ih g (d + 1)
    refine ⟨?_, ?_, ?_⟩
    · simp only [List.map_cons, chainNode_name, h1]
    · simp only [List.length_cons]
      rw [range_map_shift]
      simp only [List.map_cons, chainNode_depth, h2]
    · simp only [List.map_cons, chainNode_percentage, h3]

lemma range_map_zero (k : ℕ) :
    (List.range (k + 1)).map (fun i : ℕ => some ((i : Int)))
      = some 0 :: (List.range k).map (fun i : ℕ => some (1 + (i : Int))) := by
  rw [List.range_succ_eq_map]
  simp only [List.map_cons, List.map_map]
  refine List.cons_eq_cons.mpr ⟨?_, ?_⟩
  · norm_num
  · apply List.map_congr_left
    intro i _
    simp only [Function.comp_apply]
    congr 1
    push_cast
    ring

@[simp] lemma chainEntry_name (p : Option String × Option ℚ) :
    (chainEntry p).name = p.1 := rfl

/-- Inversion of a single-path tree: one chain is produced, its nodes carry
the original names in reverse (leaf first, original root last), its depths
count 0,1,…,D, and the promoted leaf records the folded cumulative
percentage both as `percentage` and as `effective_percentage`. -/
lemma invert_mkChain (r : Option String × Option ℚ)
    (ds : List (Option String × Option ℚ)) (hds : ds ≠ []) :
    ∃ c, (invertOwnershipTree (mkChain r ds)).children = [c] ∧
      (chainOf c).map ONode.name = ((r :: ds).map Prod.fst).reverse ∧
      (chainOf c).map ONode.depth
        = (List.range (ds.length + 1)).map (fun i : ℕ => some ((i : Int))) ∧
      c.effective_percentage
        = some (100 * (ds.map (fun d => jsOrQ d.2 0)).prod / 100 ^ ds.length) ∧
      c.percentage = c.effective_percentage := by
  have hu : findUBOs (mkChain r ds) = [⟨(lastOf r ds).1, none, true,
      ds.foldl (fun c d => cumStep c d.2) 100, [] ++ (r :: ds).map chainEntry⟩] :=
    findUBOsF_chain ds r [] 100 [] (osize (mkChain r ds)) le_rfl
  -- destructure the reversed path: at least two entries since `ds ≠ []`
  have hlen : ((r :: ds).map chainEntry).reverse.length = ds.length + 1 := by
    simp
  obtain ⟨a, q', hq⟩ : ∃ a q', ((r :: ds).map chainEntry).reverse = a :: q' := by
    cases h : ((r :: ds).map chainEntry).reverse with
    | nil => rw [h] at hlen; simp at hlen
    | cons a q' => exact ⟨a, q', rfl⟩
  obtain ⟨b, t, hq'⟩ : ∃ b t, q' = b :: t := by
    cases ds with
    | nil => exact absurd rfl hds
    | cons d0 ds' =>
      rw [hq] at hlen
      cases h : q' with
      | nil => rw [h] at hlen; simp at hlen
      | cons b t => exact ⟨b, t, rfl⟩
  subst hq'
  -- the single inverted chain
  refine ⟨ONode.mk a.name a.name a.company_number (some a.is_company)
    (some (ds.foldl (fun c d => cumStep c d.2) 100))
    (some (ds.foldl (fun c d => cumStep c d.2) 100))
    none a.shares_held none (some 0) []
    [chainNode b 1 (buildChildChain t 2)], ?_, ?_, ?_, ?_, ?_⟩
  · show ((findUBOs (mkChain r ds)).map invertedTreeOfUbo).reduceOption = _
    rw [hu]
    have hinv : invertedTreeOfUbo ⟨(lastOf r ds).1, none, true,
        ds.foldl (fun c d => cumStep c d.2) 100, [] ++ (r :: ds).map chainEntry⟩
        = some (ONode.mk a.name a.name a.company_number (some a.is_company)
            (some (ds.foldl (fun c d => cumStep c d.2) 100))
            (some (ds.foldl (fun c d => cumStep c d.2) 100))
            none a.shares_held none (some 0) []
            [chainNode b 1 (buildChildChain t 2)]) := by
      unfold invertedTreeOfUbo
      simp only [List.nil_append]
      rw [hq]
    rw [List.map_cons, List.map_nil, hinv]
    simp [List.reduceOption]
  · rw [chainOf_cons (show (ONode.mk a.name a.name a.company_number
        (some a.is_company) (some (ds.foldl (fun c d => cumStep c d.2) 100))
        (some (ds.foldl (fun c d => cumStep c d.2) 100))
        none a.shares_held none (some 0) []
        [chainNode b 1 (buildChildChain t 2)]).children
        = [chainNode b 1 (buildChildChain t 2)] from rfl)]
    have hp := (chain_projs t b 1).1
    rw [show ((1 : Int) + 1) = 2 from rfl] at hp
    simp only [List.map_cons, hp]
    show List.map PathEntry.name (a :: b :: t) = _
    rw [← hq, List.map_reverse, List.map_map]
    simp [Function.comp]
  · rw [chainOf_cons (show (ONode.mk a.name a.name a.company_number
        (some a.is_company) (some (ds.foldl (fun c d => cumStep c d.2) 100))
        (some (ds.foldl (fun c d => cumStep c d.2) 100))
        none a.shares_held none (some 0) []
        [chainNode b 1 (buildChildChain t 2)]).children
        = [chainNode b 1 (buildChildChain t 2)] from rfl)]
    have hp := (chain_projs t b 1).2.1
    rw [show ((1 : Int) + 1) = 2 from rfl] at hp
    simp only [List.map_cons, hp]
    have hlt : t.length + 1 + 1 = ds.length + 1 := by
      rw [hq] at hlen
      simpa using hlen
    rw [show ds.length + 1 = t.length + 1 + 1 from hlt.symm, range_map_zero]
    rfl
  · rw [foldl_cumStep]
    rfl
  · rfl

/-! ### Consolidator lemmas (claims C6 and C7) -/

lemma updateFirst_length (s : ScreenState) (k : String) (g : SEntry → SEntry) :
    (updateFirst s k g).length = s.length := by
  induction s with
  | nil => rfl
  | cons p t ih =>
    obtain ⟨k0, e⟩ := p
    simp only [updateFirst]
    split <;> simp [ih]

lemma keys_updateFirst (s : ScreenState) (k : String) (g : SEntry → SEntry) :
    (updateFirst s k g).map Prod.fst = s.map Prod.fst := by
  induction s with
  | nil => rfl
  | cons p t ih =>
    obtain ⟨k0, e⟩ := p
    simp only [updateFirst]
    split <;> simp [ih]

lemma contains_iff_mem (l : List String) (a : String) :
    l.contains a = true ↔ a ∈ l := by
  simp [List.contains_iff_exists_mem_beq, eq_comm]

lemma find?_updateFirst (s : ScreenState) (k : String) (g : SEntry → SEntry)
    (p0 : String × SEntry) (h : s.find? (fun p => p.1 = k) = some p0) :
    (updateFirst s k g).find? (fun p => p.1 = k) = some (p0.1, g p0.2) := by
  induction s with
  | nil => simp at h
  | cons p t ih =>
    obtain ⟨k0, e⟩ := p
    by_cases hk : k0 = k
    · subst hk
      rw [List.find?_cons_of_pos _ (by simp)] at h
      have : p0 = (k0, e) := by injection h with h'; exact h'.symm
      subst this
      simp only [updateFirst]
      rw [if_pos trivial, List.find?_cons_of_pos _ (by simp)]
    · simp only [updateFirst, if_neg hk]
      rw [List.find?_cons_of_neg _ (by simp [hk])] at h
      rw [List.find?_cons_of_neg _ (by simp [hk])]
      exact ih h

lemma hasKey_of_find? {s : ScreenState} {k : String} {p0 : String × SEntry}
    (h : s.find? (fun p => p.1 = k) = some p0) : hasKey s k = true := by
  have hm := List.find?_some h
  have hmem := List.mem_of_find?_eq_some h
  simp only [hasKey, List.any_eq_true]
  exact ⟨p0, hmem, hm⟩

lemma find?_of_hasKey {s : ScreenState} {k : String} (h : hasKey s k = true) :
    ∃ p0, s.find? (fun p => p.1 = k) = some p0 := by
  simp only [hasKey, List.any_eq_true] at h
  obtain ⟨p, hp, hpk⟩ := h
  have : (s.find? (fun p => p.1 = k)).isSome := List.find?_isSome.mpr ⟨p, hp, hpk⟩
  exact Option.isSome_iff_exists.mp this

lemma find?_append_left_none {s t : ScreenState} {k : String}
    (h : s.find? (fun p => p.1 = k) = none) :
    (s ++ t).find? (fun p => p.1 = k) = t.find? (fun p => p.1 = k) := by
  induction s with
  | nil => simp
  | cons p s' ih =>
    simp only [List.find?_cons] at h ⊢
    cases hd : decide (p.1 = k) with
    | true => rw [hd] at h; simp at h
    | false =>
      rw [hd] at h
      simp only [List.cons_append, List.find?_cons, hd]
      exact ih h

lemma roleIn_merge (e : SEntry) (n : String) (r : SRec) :
    roleIn r (mergeEntry e n r) := by
  intro ρ hρ hne
  simp only [mergeEntry, hρ]
  by_cases hmem : ρ ∈ e.roles
  · split <;> simp [hmem]
  · rw [if_pos ⟨hne, by simpa [contains_iff_mem] using hmem⟩]
    simp

lemma roleIn_new (n : String) (r : SRec) : roleIn r (newEntry n r) := by
  intro ρ hρ hne
  simp [newEntry, hρ, hne]

lemma merge_roles_len_of_roleIn {e : SEntry} {r : SRec} (n : String)
    (h : roleIn r e) : (mergeEntry e n r).roles.length = e.roles.length := by
  simp only [mergeEntry]
  cases hρ : r.role with
  | none => rfl
  | some ρ =>
    show (if ρ ≠ "" ∧ ¬ e.roles.contains ρ = true
          then e.roles ++ [ρ] else e.roles).length = e.roles.length
    by_cases hne : ρ = ""
    · subst hne; simp
    · rw [if_neg (by
        rintro ⟨-, hc⟩
        exact hc ((contains_iff_mem _ _).mpr (h ρ hρ hne)))]

lemma hasKey_updateFirst (s : ScreenState) (k k' : String) (g : SEntry → SEntry) :
    hasKey (updateFirst s k g) k' = hasKey s k' := by
  simp only [hasKey]
  induction s with
  | nil => rfl
  | cons p t ih =>
    obtain ⟨k0, e⟩ := p
    simp only [updateFirst]
    split <;> simp [ih]

lemma hasKey_addPerson (s : ScreenState) (n : String) (r : SRec) :
    hasKey (addPerson s n r) (normalizeName n) = true := by
  by_cases h : hasKey s (normalizeName n) = true
  · rw [addPerson]
    rw [if_pos h, hasKey_updateFirst]
    exact h
  · rw [addPerson]
    rw [if_neg h]
    simp [hasKey, List.any_append]

lemma keysNodup_updateFirst (s : ScreenState) (k : String) (g : SEntry → SEntry) :
    keysNodup (updateFirst s k g) = keysNodup s := by
  induction s with
  | nil => rfl
  | cons p t ih =>
    obtain ⟨k0, e⟩ := p
    simp only [updateFirst]
    by_cases hk : k0 = k
    · rw [if_pos hk]
      simp [keysNodup]
    · rw [if_neg hk]
      simp only [keysNodup, ih]
      have : (updateFirst t k g).any (fun p => p.1 = k0) = t.any (fun p => p.1 = k0) := by
        have := hasKey_updateFirst t k k0 g
        simpa [hasKey] using this
      rw [this]

lemma keysNodup_append_one (s : ScreenState) (k : String) (e : SEntry)
    (hk : hasKey s k = false) (hs : keysNodup s = true) :
    keysNodup (s ++ [(k, e)]) = true := by
  induction s with
  | nil => simp [keysNodup]
  | cons p t ih =>
    obtain ⟨k0, e0⟩ := p
    simp only [hasKey, List.any_cons, Bool.or_eq_false_iff] at hk
    simp only [keysNodup, Bool.and_eq_true] at hs
    simp only [List.cons_append, keysNodup, Bool.and_eq_true]
    have hne : k ≠ k0 := by
      intro habs
      rw [habs] at hk
      simp at hk
    have h1 : (t ++ [(k, e)]).any (fun p => p.1 = k0) = false := by
      rw [List.any_append]
      simp only [Bool.or_eq_false_iff]
      refine ⟨by simpa using hs.1, ?_⟩
      simp [hne]
    refine ⟨by simp [h1], ih (by simpa [hasKey] using hk.2) hs.2⟩

lemma keysNodup_addPerson (s : ScreenState) (n : String) (r : SRec)
    (h : keysNodup s = true) : keysNodup (addPerson s n r) = true := by
  by_cases hk : hasKey s (normalizeName n) = true
  · rw [addPerson]
    rw [if_pos hk, keysNodup_updateFirst]
    exact h
  · rw [addPerson]
    rw [if_neg hk]
    exact keysNodup_append_one s _ _ (by simpa using hk) h

/-- The display name after a merge, as one flat condition: the new trimmed raw
name wins exactly when (the record carries nationality or dob and the existing
entry has neither), or (the record carries neither nationality nor dob, the
new raw name contains a comma and the existing display name does not). -/
lemma mergeEntry_name (e : SEntry) (n : String) (d : SRec) :
    (mergeEntry e n d).name =
      if (((jsTruthyS d.nationality || jsTruthyS d.dob)
            && (!jsTruthyS e.nationality && !jsTruthyS e.dob))
          || (!(jsTruthyS d.nationality || jsTruthyS d.dob)
              && (!hasComma e.name && hasComma n))) = true
      then trimS n else e.name := by
  simp only [mergeEntry]
  cases h1 : jsTruthyS d.nationality <;> cases h2 : jsTruthyS d.dob <;>
    cases h3 : jsTruthyS e.nationality <;> cases h4 : jsTruthyS e.dob <;>
    cases h5 : hasComma e.name <;> cases h6 : hasComma n <;> simp

lemma entryAt_addPerson (s : ScreenState) (n : String) (d : SRec) (e : SEntry)
    (h : entryAt s (normalizeName n) = some e) :
    entryAt (addPerson s n d) (normalizeName n) = some (mergeEntry e n d) := by
  obtain ⟨p0, hp0⟩ : ∃ p0, s.find? (fun p => p.1 = normalizeName n) = some p0 := by
    cases hf : s.find? (fun p => p.1 = normalizeName n) with
    | none => rw [entryAt, hf] at h; simp at h
    | some p0 => exact ⟨p0, rfl⟩
  have he : p0.2 = e := by
    rw [entryAt, hp0] at h
    simpa using h
  have hk := hasKey_of_find? hp0
  rw [addPerson]
  rw [if_pos hk, entryAt, find?_updateFirst s _ _ p0 hp0]
  simp [he]

/-- Applying the accumulate step twice with the same name and record changes
neither the number of entries nor the affected entry's number of roles,
compared with applying it once. -/
lemma addPerson_twice (s : ScreenState) (n : String) (r : SRec) :
    (addPerson (addPerson s n r) n r).length = (addPerson s n r).length ∧
    rolesAt (addPerson (addPerson s n r) n r) (normalizeName n)
      = rolesAt (addPerson s n r) (normalizeName n) := by
  have hk1 : hasKey (addPerson s n r) (normalizeName n) = true := hasKey_addPerson s n r
  have hadd2 : addPerson (addPerson s n r) n r
      = updateFirst (addPerson s n r) (normalizeName n) (fun e => mergeEntry e n r) := by
    rw [addPerson]
    rw [if_pos hk1]
  -- the entry stored under the key after the first step contains the role
  obtain ⟨p1, hp1⟩ := find?_of_hasKey hk1
  have hrole : roleIn r p1.2 := by
    by_cases hk0 : hasKey s (normalizeName n) = true
    · obtain ⟨p0, hp0⟩ := find?_of_hasKey hk0
      have : (addPerson s n r).find? (fun p => p.1 = normalizeName n)
          = some (p0.1, mergeEntry p0.2 n r) := by
        rw [addPerson]
        rw [if_pos hk0]
        exact find?_updateFirst s _ _ p0 hp0
      rw [this] at hp1
      have : p1 = (p0.1, mergeEntry p0.2 n r) := by simpa using hp1.symm
      rw [this]
      exact roleIn_merge p0.2 n r
    · have hnone : s.find? (fun p => p.1 = normalizeName n) = none := by
        rw [List.find?_eq_none]
        intro p hp hpk
        apply hk0
        simp only [hasKey, List.any_eq_true]
        exact ⟨p, hp, hpk⟩
      have : (addPerson s n r).find? (fun p => p.1 = normalizeName n)
          = some (normalizeName n, newEntry n r) := by
        rw [addPerson]
        rw [if_neg (by simp [hk0]), find?_append_left_none hnone]
        simp
      rw [this] at hp1
      have : p1 = (normalizeName n, newEntry n r) := by simpa using hp1.symm
      rw [this]
      exact roleIn_new n r
  constructor
  · rw [hadd2, updateFirst_length]
  · rw [hadd2, rolesAt, find?_updateFirst _ _ _ p1 hp1, rolesAt, hp1]
    exact merge_roles_len_of_roleIn n hrole

/-! ### Percentage handling (claim C8) -/

lemma cumStep_none (c : ℚ) : cumStep c none = 0 := by
  simp [cumStep, jsOrQ]

lemma cumStep_some (c p : ℚ) (h : p ≠ 0) : cumStep c (some p) = c * p / 100 := by
  simp [cumStep, jsOrQ, h]

lemma childEffective_absent (eff : ℚ) (c : ONode)
    (h1 : c.effective_percentage = none) (h2 : c.percentage = none) :
    childEffective eff c = eff := by
  simp [childEffective, jsOrQ, h1, h2]

/-- A nonzero percentage — negative or above 100 included — flows through
`traverseTree`'s child-effective computation (line 1464) unchanged. -/
lemma childEffective_some (eff : ℚ) (c : ONode) (p : ℚ)
    (h1 : c.effective_percentage = none) (h2 : c.percentage = some p)
    (h3 : p ≠ 0) : childEffective eff c = eff * p / 100 := by
  simp [childEffective, jsOrQ, h1, h2, h3]

/-! ### The node-shift step of `createOwnershipSVG` (claim C10) -/

lemma pnode_x_id (n : PNode) : { n with x := n.x + 0 } = n := by
  cases n
  simp

lemma svgShift_spec (nodes : List PNode) (links : List Link) (h : nodes ≠ []) :
    (svgShift nodes links).2 = links ∧
    (listMinQ (nodes.map (fun n => n.x)) - 100 < 50 →
      (svgShift nodes links).1 = nodes.map (fun n =>
        { n with x := n.x + (50 - (listMinQ (nodes.map (fun n => n.x)) - 100)) })) ∧
    (¬ listMinQ (nodes.map (fun n => n.x)) - 100 < 50 →
      (svgShift nodes links).1 = nodes) := by
  rw [svgShift]
  rw [if_neg h]
  refine ⟨rfl, ?_, ?_⟩
  · intro hlt
    simp only [if_pos hlt]
  · intro hge
    simp only [if_neg hge]
    rw [show nodes.map (fun n => { n with x := n.x + 0 }) = nodes.map id by
      apply List.map_congr_left
      intro n _
      exact pnode_x_id n]
    simp

/-! ## The claims -/

lemma hundred_cancel (p : ℚ) (k : ℕ) (h : 1 ≤ k) :
    100 * p / 100 ^ k = p / 100 ^ (k - 1) := by
  obtain ⟨m, rfl⟩ : ∃ m, k = m + 1 := ⟨k - 1, by omega⟩
  rw [pow_succ]
  simp only [Nat.add_sub_cancel]
  have h1 : (100 : ℚ) ≠ 0 := by norm_num
  have h2 : (100 : ℚ) ^ m ≠ 0 := pow_ne_zero _ h1
  field_simp
  ring

/-- C1 (amended): for every ownership tree on which the traversal's
duplicate-skip branch never fires, one layout run emits exactly `countNodes t`
positioned nodes and exactly `countNodes t - 1` links, and for every emitted
link the depth recorded on the node carrying the target id is the depth
recorded on the node carrying the source id plus 1.  (As literally stated the
claim is false: a duplicated dedup key makes the traversal drop a subtree, see
`C1_layout_counts_cex`.) -/
theorem C1_layout_counts (t : ONode) (h : (runLayout t).skips = 0) :
    (runLayout t).nodes.length = countNodes t ∧
    (runLayout t).links.length = countNodes t - 1 ∧
    (∀ l ∈ (runLayout t).links, ∀ ns ∈ (runLayout t).nodes,
      ∀ nt ∈ (runLayout t).nodes,
      ns.id = l.source → nt.id = l.target → nt.depth = ns.depth + 1) := by
  obtain ⟨hn, hl⟩ := runLayout_counts t h
  have hc := countNodes_pos t
  exact ⟨hn, by omega, goodSt_depth_step (runLayout_good t)⟩

/-- Witness for C1 at the three-node tree `tTri`. -/
theorem C1_layout_counts_witness :
    (runLayout tTri).skips = 0 ∧
    ((runLayout tTri).nodes.length = countNodes tTri ∧
     (runLayout tTri).links.length = countNodes tTri - 1 ∧
     (∀ l ∈ (runLayout tTri).links, ∀ ns ∈ (runLayout tTri).nodes,
       ∀ nt ∈ (runLayout tTri).nodes,
       ns.id = l.source → nt.id = l.target → nt.depth = ns.depth + 1)) :=
  ⟨by decide, C1_layout_counts tTri (by decide)⟩

/-- C1 is false as literally stated: `tDup` has 5 nodes but the duplicated
registry number makes the traversal emit only 4 nodes and 3 links. -/
theorem C1_layout_counts_cex :
    countNodes tDup = 5 ∧
    (runLayout tDup).nodes.length = 4 ∧
    (runLayout tDup).links.length = 3 ∧
    ¬ (runLayout tDup).nodes.length = countNodes tDup ∧
    ¬ (runLayout tDup).links.length = countNodes tDup - 1 := by decide

unseal Rat.mul Rat.add Rat.sub Rat.inv in
/-- C2: in every layout run each emitted node has at most one incoming link
and no two emitted nodes share a dedup key; and in the spec's dedup scenario
(`tDup`: registry number `30000000` under two parents) the duplicate is
emitted exactly once, at its first discovered position (under `A`, linked from
`A`), while the second occurrence is skipped. -/
theorem C2_dedup_invariants :
    (∀ t : ONode,
      (∀ p ∈ (runLayout t).nodes,
        ((runLayout t).links.filter (fun l => l.target = p.id)).length ≤ 1) ∧
      ((runLayout t).nodes.map pkey).Nodup) ∧
    (((runLayout tDup).nodes.filter
        (fun p => p.companyNumber = some "30000000")).length = 1 ∧
     (runLayout tDup).skips = 1 ∧
     (runLayout tDup).nodes.map (fun p => (p.id, p.companyNumber)) =
       [(0, some "10000000"), (1, some "20000000"), (2, some "30000000"),
        (3, some "40000000")] ∧
     (runLayout tDup).links = [⟨0, 1⟩, ⟨1, 2⟩, ⟨0, 3⟩] ∧
     (runLayout tDup).nodes.map (fun p => (p.x, p.y)) =
       [(250, 50), (125, 200), (125, 350), (375, 200)]) := by
  constructor
  · intro t
    refine ⟨?_, (runLayout_good t).keysNodup⟩
    intro p _
    exact filter_target_le_one _ (runLayout_good t).targetsNodup p.id
  · decide

unseal Rat.mul Rat.add Rat.sub Rat.inv in
/-- Witness for C2's membership hypothesis at the root node of `tDup`. -/
theorem C2_dedup_invariants_witness :
    ((runLayout tDup).links.filter (fun l => l.target
      = (⟨0, some "R", some "10000000", 100, "", 0, true, 0, 250, 50, ""⟩
          : PNode).id)).length ≤ 1 :=
  (C2_dedup_invariants.1 tDup).1
    ⟨0, some "R", some "10000000", 100, "", 0, true, 0, 250, 50, ""⟩ (by decide)

/-- C3 (amended): `getSubtreeWidth` returns 250 for a leaf, `200 × count`
without recursing for more than 6 direct children, and the sum of the
children's widths floored at 250 otherwise; but the width reserved for a
child at layout time is always `getSubtreeWidth child`, which is never less
than 250 — never the 200px the claim asserts for wide fan-outs (see
`C3_subtree_width_cex`). -/
theorem C3_subtree_width (n : ONode) :
    ((n.shareholders ++ n.children).length = 0 → getSubtreeWidth n = 250) ∧
    (6 < (n.shareholders ++ n.children).length →
      getSubtreeWidth n = ((n.shareholders ++ n.children).length : ℚ) * 200) ∧
    (0 < (n.shareholders ++ n.children).length →
      (n.shareholders ++ n.children).length ≤ 6 →
      getSubtreeWidth n = max 250 (sumWidths (n.shareholders ++ n.children))) ∧
    250 ≤ getSubtreeWidth n := by
  refine ⟨?_, ?_, ?_, getSubtreeWidth_ge n⟩
  · intro h
    rw [getSubtreeWidth_eq, if_pos h]
  · intro h
    rw [getSubtreeWidth_eq, if_neg (by omega), if_pos h]
  · intro h1 h2
    rw [getSubtreeWidth_eq, if_neg (by omega), if_neg (by omega)]

unseal Rat.mul Rat.add Rat.sub Rat.inv in
/-- Witness for C3 at the seven-child tree `tSeven`. -/
theorem C3_subtree_width_witness :
    6 < (tSeven.shareholders ++ tSeven.children).length ∧
    getSubtreeWidth tSeven
      = ((tSeven.shareholders ++ tSeven.children).length : ℚ) * 200 :=
  ⟨by decide, (C3_subtree_width tSeven).2.1 (by decide)⟩

unseal Rat.mul Rat.add Rat.sub Rat.inv in
/-- C3 is false in its "each such child's reserved width is exactly 200px"
part: under a root with 7 leaf children every child's subtree width is 250,
and the laid-out children sit 250px apart, not 200px. -/
theorem C3_subtree_width_cex :
    (tSeven.shareholders ++ tSeven.children).length = 7 ∧
    tSeven.children.map getSubtreeWidth = [250, 250, 250, 250, 250, 250, 250] ∧
    ¬ tSeven.children.map getSubtreeWidth = [200, 200, 200, 200, 200, 200, 200] ∧
    (runLayout tSeven).nodes.map (fun p => p.x)
      = [700, -50, 200, 450, 700, 950, 1200, 1450] ∧
    (200 : ℚ) - (-50) = 250 ∧ ¬ ((250 : ℚ) = 200) := by decide

unseal Rat.mul Rat.add Rat.sub Rat.inv in
/-- C4: inverting a single-path tree of depth `D` yields one chain of `D + 1`
nodes, leaf first at depth 0 and original root last at depth `D`, the chain
names being the original root-to-leaf names reversed, and the promoted leaf's
effective percentage being the product of the path percentages (absent ⇒ 0)
divided by `100^(D-1)` — i.e. the product of the percentages in percent
terms; in particular `X Ltd → Y Ltd (60%) → Bob (50%)` gives Bob 30. -/
theorem C4_inversion_chain :
    (∀ (r : Option String × Option ℚ) (ds : List (Option String × Option ℚ)),
      ds ≠ [] →
      ∃ c, (invertOwnershipTree (mkChain r ds)).children = [c] ∧
        (chainOf c).length = ds.length + 1 ∧
        (chainOf c).map ONode.name = ((r :: ds).map Prod.fst).reverse ∧
        (chainOf c).map ONode.depth
          = (List.range (ds.length + 1)).map (fun i : ℕ => some ((i : Int))) ∧
        c.effective_percentage
          = some ((ds.map (fun d => jsOrQ d.2 0)).prod / 100 ^ (ds.length - 1)) ∧
        c.percentage = c.effective_percentage) ∧
    ((invertOwnershipTree xyzTree).children.map
        (fun c => ((chainOf c).map ONode.name, (chainOf c).map ONode.depth,
          c.effective_percentage, c.percentage))
      = [([some "Bob", some "Y Ltd", some "X Ltd"],
          [some 0, some 1, some 2], some 30, some 30)]) := by
  constructor
  · intro r ds hds
    obtain ⟨c, h1, h2, h3, h4, h5⟩ := invert_mkChain r ds hds
    refine ⟨c, h1, ?_, h2, h3, ?_, h5⟩
    · have := congrArg List.length h2
      simpa using this
    · rw [h4, hundred_cancel _ _ (by
        cases ds with
        | nil => exact absurd rfl hds
        | cons a t => simp)]
  · decide

/-- Witness for C4 at the literal scenario data. -/
theorem C4_inversion_chain_witness :
    ([((some "Y Ltd" : Option String), (some 60 : Option ℚ)),
      (some "Bob", some 50)] ≠ []) ∧
    (∃ c, (invertOwnershipTree (mkChain ((some "X Ltd" : Option String),
        (none : Option ℚ))
        [((some "Y Ltd" : Option String), (some 60 : Option ℚ)),
         (some "Bob", some 50)])).children = [c] ∧
      (chainOf c).length = 3 ∧
      (chainOf c).map ONode.name
        = (((some "X Ltd", (none : Option ℚ)) ::
            [((some "Y Ltd" : Option String), (some 60 : Option ℚ)),
             (some "Bob", some 50)]).map Prod.fst).reverse ∧
      (chainOf c).map ONode.depth
        = (List.range 3).map (fun i : ℕ => some ((i : Int))) ∧
      c.effective_percentage
        = some (([((some "Y Ltd" : Option String), (some 60 : Option ℚ)),
            (some "Bob", some 50)].map (fun d => jsOrQ d.2 0)).prod / 100 ^ 1) ∧
      c.percentage = c.effective_percentage) :=
  ⟨by decide, C4_inversion_chain.1 (some "X Ltd", none)
    [(some "Y Ltd", some 60), (some "Bob", some 50)] (by decide)⟩

/-- C5: the four literal name-normalization examples of the spec. -/
theorem C5_normalize_literals :
    normalizeName "UNITED KENNING RENTAL GROUP LIMITED"
      = "UNITED KENNING RENTAL GROUP LTD" ∧
    normalizeName "Khan, Haroon" = "HAROON KHAN" ∧
    normalizeName "Mr John Smith" = "JOHN SMITH" ∧
    normalizeName "SMITH, John" = "JOHN SMITH" := by decide

/-- C6: on a state with pairwise-distinct normalized keys, applying the
accumulate step twice with the byte-identical name and record leaves the entry
count and the affected entry's role count the same as applying it once, and
the step keeps keys pairwise distinct (a colliding record is merged, never
appended). -/
theorem C6_idempotent_accumulate (s : ScreenState) (n : String) (r : SRec)
    (h : keysNodup s = true) :
    (addPerson (addPerson s n r) n r).length = (addPerson s n r).length ∧
    rolesAt (addPerson (addPerson s n r) n r) (normalizeName n)
      = rolesAt (addPerson s n r) (normalizeName n) ∧
    keysNodup (addPerson s n r) = true :=
  ⟨(addPerson_twice s n r).1, (addPerson_twice s n r).2,
    keysNodup_addPerson s n r h⟩

/-- Witness for C6 at the empty state. -/
theorem C6_idempotent_accumulate_witness :
    keysNodup [] = true ∧
    ((addPerson (addPerson [] "Mr John Smith"
        ⟨some "Director", none, none, none, false, none⟩) "Mr John Smith"
        ⟨some "Director", none, none, none, false, none⟩).length
      = (addPerson [] "Mr John Smith"
        ⟨some "Director", none, none, none, false, none⟩).length ∧
     rolesAt (addPerson (addPerson [] "Mr John Smith"
        ⟨some "Director", none, none, none, false, none⟩) "Mr John Smith"
        ⟨some "Director", none, none, none, false, none⟩)
        (normalizeName "Mr John Smith")
      = rolesAt (addPerson [] "Mr John Smith"
        ⟨some "Director", none, none, none, false, none⟩)
        (normalizeName "Mr John Smith") ∧
     keysNodup (addPerson [] "Mr John Smith"
        ⟨some "Director", none, none, none, false, none⟩) = true) :=
  ⟨rfl, C6_idempotent_accumulate [] "Mr John Smith"
    ⟨some "Director", none, none, none, false, none⟩ rfl⟩

/-- C7 (amended): on a merge, the display name becomes the trimmed new raw
name exactly when (the record carries a nationality or dob and the existing
entry has neither) or (the record carries neither nationality nor dob, the
new raw name contains a comma and the existing display name does not); in
every other case it is unchanged.  The comma rule is only consulted when the
record carries neither nationality nor dob — as literally stated (comma rule
as an unconditional alternative) the claim is false, see
`C7_display_name_rule_cex`.  The A LTD / A Ltd scenario yields one entry
named "A LTD" with both roles. -/
theorem C7_display_name_rule :
    (∀ (s : ScreenState) (n : String) (d : SRec) (e : SEntry),
      entryAt s (normalizeName n) = some e →
      (entryAt (addPerson s n d) (normalizeName n)).map SEntry.name
        = some (if (((jsTruthyS d.nationality || jsTruthyS d.dob)
                && (!jsTruthyS e.nationality && !jsTruthyS e.dob))
              || (!(jsTruthyS d.nationality || jsTruthyS d.dob)
                  && (!hasComma e.name && hasComma n))) = true
            then trimS n else e.name)) ∧
    (addPerson (addPerson [] "A LTD"
        ⟨some "Parent", none, none, some "T", true, none⟩) "A Ltd"
        ⟨some "Ultimate Parent", none, none, some "T", true, none⟩
      = [("A LTD", ⟨"A LTD", ["Parent", "Ultimate Parent"], none, none,
          ["T"], true, none⟩)]) := by
  constructor
  · intro s n d e h
    rw [entryAt_addPerson s n d e h]
    show some (mergeEntry e n d).name = _
    rw [mergeEntry_name]
  · decide

/-- Witness for C7's merge hypothesis at a one-entry state. -/
theorem C7_display_name_rule_witness :
    entryAt [("JOHN SMITH",
        ⟨"John Smith", [], some "UK", none, [], false, none⟩)]
      (normalizeName "Smith, John")
      = some ⟨"John Smith", [], some "UK", none, [], false, none⟩ ∧
    (entryAt (addPerson [("JOHN SMITH",
        ⟨"John Smith", [], some "UK", none, [], false, none⟩)]
        "Smith, John" ⟨none, some "FR", none, none, false, none⟩)
      (normalizeName "Smith, John")).map SEntry.name
      = some (if (((jsTruthyS (some "FR") || jsTruthyS (none : Option String))
              && (!jsTruthyS (some "UK") && !jsTruthyS (none : Option String)))
            || (!(jsTruthyS (some "FR") || jsTruthyS (none : Option String))
                && (!hasComma "John Smith" && hasComma "Smith, John"))) = true
          then trimS "Smith, John" else "John Smith") :=
  ⟨by decide, C7_display_name_rule.1
    [("JOHN SMITH", ⟨"John Smith", [], some "UK", none, [], false, none⟩)]
    "Smith, John" ⟨none, some "FR", none, none, false, none⟩
    ⟨"John Smith", [], some "UK", none, [], false, none⟩ (by decide)⟩

/-- C7 is false as literally stated: the incoming record carries a
nationality and the existing entry already has one; the new raw name
"Smith, John" has a comma and the existing display name "John Smith" does
not, so the claimed condition (b) holds — yet the display name is not
replaced, because the code never reaches the comma rule when the record
carries nationality or dob. -/
theorem C7_display_name_rule_cex :
    hasComma "Smith, John" = true ∧
    hasComma "John Smith" = false ∧
    (entryAt (addPerson [("JOHN SMITH",
        ⟨"John Smith", [], some "UK", none, [], false, none⟩)]
        "Smith, John" ⟨none, some "FR", none, none, false, none⟩)
      "JOHN SMITH").map SEntry.name = some "John Smith" ∧
    ¬ (some "John Smith" = some (trimS "Smith, John")) := by decide

/-- C8 (amended): in `findUBOs` an absent percentage contributes 0 to the
cumulative product, while any nonzero value — negative or above 100 included
— is used as-is (`cum * p / 100`); in `traverseTree`'s child-effective
computation an absent percentage is instead treated as 100, passing the
parent's cumulative through unchanged, and any nonzero value — negative or
above 100 included — is likewise used as-is (`eff * p / 100`).  No malformed
value raises an error (every embedded function is total).  As literally
stated (negative and `> 100` treated as 0) the claim is false, see
`C8_percentages_cex`. -/
theorem C8_percentages :
    (∀ c : ℚ, cumStep c none = 0) ∧
    (∀ c p : ℚ, p ≠ 0 → cumStep c (some p) = c * p / 100) ∧
    (∀ (eff : ℚ) (c : ONode), c.effective_percentage = none →
      c.percentage = none → childEffective eff c = eff) ∧
    (∀ (eff : ℚ) (c : ONode) (p : ℚ), c.effective_percentage = none →
      c.percentage = some p → p ≠ 0 → childEffective eff c = eff * p / 100) :=
  ⟨cumStep_none, cumStep_some, childEffective_absent, childEffective_some⟩

unseal Rat.mul Rat.add Rat.sub Rat.inv in
/-- Witness for C8 at the malformed value `-50` (in both the `findUBOs` step
and the `traverseTree` child-effective step) and at a percentage-free node. -/
theorem C8_percentages_witness :
    ((-50 : ℚ) ≠ 0 ∧ cumStep 100 (some (-50)) = 100 * (-50) / 100) ∧
    (xyzTree.effective_percentage = none ∧ xyzTree.percentage = none ∧
     childEffective 75 xyzTree = 75) ∧
    ((ONode.mk (some "Bob") none none none (some (-50)) none none none none
        none [] []).effective_percentage = none ∧
     (ONode.mk (some "Bob") none none none (some (-50)) none none none none
        none [] []).percentage = some (-50) ∧
     childEffective 100 (ONode.mk (some "Bob") none none none (some (-50))
        none none none none none [] []) = 100 * (-50) / 100) :=
  ⟨⟨by decide, C8_percentages.2.1 100 (-50) (by decide)⟩,
   ⟨rfl, rfl, C8_percentages.2.2.1 75 xyzTree rfl rfl⟩,
   ⟨rfl, rfl, C8_percentages.2.2.2 100
      (ONode.mk (some "Bob") none none none (some (-50)) none none none none
        none [] []) (-50) rfl rfl (by decide)⟩⟩

unseal Rat.mul Rat.add Rat.sub Rat.inv in
/-- C8 is false as literally stated: a `-50` percentage flows through the
cumulative computation unchanged, so the UBO search reports an effective
percentage of `-50`, not `0`. -/
theorem C8_percentages_cex :
    (findUBOs negTree).map (fun u => u.effective_percentage) = [-50] ∧
    ¬ ((-50 : ℚ) = 0) := by decide

/-- C9: the consolidator does not degrade gracefully on a record with an
absent name: `addPerson` evaluates `name.trim()` on it and a `TypeError`
propagates to the caller (first conjunct), although an empty-string name is
fine (second conjunct) and for any present name the call cannot fail (third
conjunct). -/
theorem C9_absent_name_throws :
    runConsolidator [(some "Acme Ltd", ⟨some "Parent", none, none, none, true, none⟩),
        (none, ⟨some "Director", none, none, none, false, none⟩)]
      = Except.error "TypeError: name.trim is not a function" ∧
    (runConsolidator [(some "", ⟨some "Director", none, none, none, false, none⟩)]).isOk
      = true ∧
    (∀ (s : ScreenState) (n : String) (r : SRec),
      addPersonJS s (some n) r = Except.ok (addPerson s n r)) := by
  refine ⟨by rfl, by decide, ?_⟩
  intro s n r
  rw [addPersonJS, addPerson]
  split <;> rfl

unseal Rat.mul Rat.add Rat.sub Rat.inv in
/-- C10: `createOwnershipSVG` leaves the links untouched, and shifts every
node's `x` in place by `50 - (min x - 100)` exactly when `min x - 100 < 50`,
leaving all nodes unchanged otherwise (and every other node field unchanged
in both cases). -/
theorem C10_svg_shift (nodes : List PNode) (links : List Link)
    (h : nodes ≠ []) :
    (svgShift nodes links).2 = links ∧
    (listMinQ (nodes.map (fun n => n.x)) - 100 < 50 →
      (svgShift nodes links).1 = nodes.map (fun n =>
        { n with x := n.x + (50 - (listMinQ (nodes.map (fun n => n.x)) - 100)) })) ∧
    (¬ listMinQ (nodes.map (fun n => n.x)) - 100 < 50 →
      (svgShift nodes links).1 = nodes) :=
  svgShift_spec nodes links h

unseal Rat.mul Rat.add Rat.sub Rat.inv in
/-- Witness for C10 at a one-node list with `x = 10` (so the shift fires). -/
theorem C10_svg_shift_witness :
    ([(⟨0, none, none, 0, "", 0, true, 0, 10, 50, ""⟩ : PNode)] ≠ []) ∧
    ((svgShift [⟨0, none, none, 0, "", 0, true, 0, 10, 50, ""⟩] []).2 = [] ∧
     (listMinQ ([(⟨0, none, none, 0, "", 0, true, 0, 10, 50, ""⟩ : PNode)].map
        (fun n => n.x)) - 100 < 50 →
      (svgShift [⟨0, none, none, 0, "", 0, true, 0, 10, 50, ""⟩] []).1
        = [(⟨0, none, none, 0, "", 0, true, 0, 10, 50, ""⟩ : PNode)].map (fun n =>
          { n with x := n.x + (50 - (listMinQ
            ([(⟨0, none, none, 0, "", 0, true, 0, 10, 50, ""⟩ : PNode)].map
              (fun n => n.x)) - 100)) })) ∧
     (¬ listMinQ ([(⟨0, none, none, 0, "", 0, true, 0, 10, 50, ""⟩ : PNode)].map
        (fun n => n.x)) - 100 < 50 →
      (svgShift [⟨0, none, none, 0, "", 0, true, 0, 10, 50, ""⟩] []).1
        = [⟨0, none, none, 0, "", 0, true, 0, 10, 50, ""⟩])) :=
  ⟨by decide, C10_svg_shift [⟨0, none, none, 0, "", 0, true, 0, 10, 50, ""⟩] []
    (by decide)⟩
